import Mathlib

/-!
TinyGA: a shallow embedding of `tinyga.c`

The program is a bit-string genetic algorithm.  Its build-time `#define`s
become the fields of `Params`; the global `myGA` becomes the record `GA`;
the pseudo-random stream of `rand ()` is an explicit infinite stream that
every drawing function consumes and returns.

`BLOCK` is `unsigned int`, taken to be 32 bits wide; blocks and the other
`unsigned int` values are natural numbers below `2 ^ 32`, and every
operation that can leave that range is reduced modulo `2 ^ 32`.

Two things the C text leaves open are parameters of the model (`Machine`):
the value of a shift whose count is not smaller than the width of the
shifted type (undefined in C), and the floating-point scaling inside
`randInt`.  Theorems are stated for every `Machine` unless they say
otherwise.

C arrays are lists: `a[i]` is `a.getD i 0` (or `a.getD i []` for an array of
chromosomes) and `a[i] = v` is `a.set i v`.
-/

namespace TinyGA

/-! ## Parameters, machine, random stream -/

/-- The `#define` block at the head of the source. `GENERATIONAL` is tested
as C does it: non-zero means generational, zero means steady-state. -/
structure Params where
  POPSIZE : Nat
  LEN : Nat
  GENERATIONS : Nat
  CROSSOVER_PROB : Nat
  PMUT : Nat
  GENERATIONAL : Nat
deriving DecidableEq

/-- The values the source is shipped with. -/
def builtin : Params :=
  { POPSIZE := 1000, LEN := 128, GENERATIONS := 10000, CROSSOVER_PROB := 70,
    PMUT := 10, GENERATIONAL := 1 }

/-- What the C text does not fix.
`shlWide x n` / `shrWide x n`: the value of `x << n` / `x >> n` when
`n >= BLOCK_BIT`; `scale r max`: the value of `r * ((float) max / RAND_MAX)`
converted to `unsigned int`, for a raw draw `r` of `rand ()`. -/
structure Machine where
  shlWide : Nat → Nat → Nat
  shrWide : Nat → Nat → Nat
  scale : Nat → Nat → Nat

/-- The stream of raw results of successive `rand ()` calls. -/
abbrev Rng := Nat → Nat

/-- Source macro `CHAR_BIT * sizeof (BLOCK)` for `BLOCK = unsigned int`. -/
def BLOCK_BIT : Nat := 32

/-- Number of values of a block. -/
def BLOCK_MOD : Nat := 2 ^ BLOCK_BIT

/-- Number of values of an `unsigned int`. -/
def UINT_MOD : Nat := 2 ^ 32

/-- Source macro `(LEN / BLOCK_BIT) + (LEN % BLOCK_BIT ? 1 : 0)`. -/
def NBR_OF_BLOCK (P : Params) : Nat :=
  P.LEN / BLOCK_BIT + (if P.LEN % BLOCK_BIT ≠ 0 then 1 else 0)

/-- Source macro `(NBR_OF_BLOCK * BLOCK_BIT) - LEN`. -/
def LOST_BITS (P : Params) : Nat :=
  NBR_OF_BLOCK P * BLOCK_BIT - P.LEN

/-- A machine that reduces the shift count modulo the width of the shifted
type, as the x86 shift instructions do; `scale` is the exact quotient with
`RAND_MAX = 2 ^ 31 - 1`. -/
def maskingMachine : Machine :=
  { shlWide := fun x n => (x <<< (n % BLOCK_BIT)) % BLOCK_MOD
    shrWide := fun x n => x >>> (n % BLOCK_BIT)
    scale := fun r max => r * max / (2 ^ 31 - 1) }

/-- A machine on which an over-wide shift pushes every bit out. -/
def zeroingMachine : Machine :=
  { shlWide := fun _ _ => 0
    shrWide := fun _ _ => 0
    scale := fun r max => r * max / (2 ^ 31 - 1) }

/-- The parameters are positive `int` literals the program can be built
with: a chromosome has at least one bit. -/
def Params.valid (P : Params) : Prop :=
  0 < P.LEN ∧ P.LEN < 2 ^ 31 ∧ P.POPSIZE < 2 ^ 31

instance (P : Params) : Decidable P.valid := by
  unfold Params.valid; infer_instance

/-- A `CHROM`: `NBR_OF_BLOCK` blocks, each a 32-bit value. -/
def validChrom (P : Params) (c : List Nat) : Prop :=
  c.length = NBR_OF_BLOCK P ∧ ∀ b ∈ c, b < BLOCK_MOD

instance (P : Params) (c : List Nat) : Decidable (validChrom P c) := by
  unfold validChrom; infer_instance

/-- The loop `for (i = 0; i < n; ++i) body`, on an explicit state. -/
def forLoop {σ : Type} (n : Nat) (body : Nat → σ → σ) (s : σ) : σ :=
  match n with
  | 0 => s
  | k + 1 => body k (forLoop k body s)

/-! ## Machine arithmetic -/

/-- The complement `~x` of a block. -/
def bnot (x : Nat) : Nat := x ^^^ (BLOCK_MOD - 1)

/-- The shift `x << n` of a block. -/
def shl (M : Machine) (x n : Nat) : Nat :=
  if n < BLOCK_BIT then (x <<< n) % BLOCK_MOD else M.shlWide x n % BLOCK_MOD

/-- The shift `x >> n` of a block. -/
def shr (M : Machine) (x n : Nat) : Nat :=
  if n < BLOCK_BIT then x >>> n else M.shrWide x n % BLOCK_MOD

/-- The sum `a + b` of two `unsigned int`. -/
def uadd (a b : Nat) : Nat := (a + b) % UINT_MOD

/-- The difference `a - b` of two `unsigned int`. -/
def usub (a b : Nat) : Nat := (a + UINT_MOD - b) % UINT_MOD

/-! ## Random functions -/

/-- Function `randInt`: one raw draw is consumed and scaled. -/
def randInt (M : Machine) (max : Nat) (s : Rng) : Nat × Rng :=
  (M.scale (s 0) max % UINT_MOD, fun i => s (i + 1))

/-- Function `flip`: no draw for `p == 100` and `p == 0`, else `randInt (100) <= p`. -/
def flip (M : Machine) (p : Nat) (s : Rng) : Nat × Rng :=
  if p = 100 then (1, s)
  else if p ≠ 0 then
    ((if (randInt M 100 s).1 ≤ p then 1 else 0), (randInt M 100 s).2)
  else (0, s)

/-- The loop of `rouletteWheel`, from the state `(j, notfind)`. The first
argument bounds the number of iterations; `POPSIZE - j` of them always
suffice, since `j` grows by one each time and the loop stops at `POPSIZE`. -/
def rouletteLoop (P : Params) (cumfit : List Nat) (seed : Nat) :
    Nat → Nat → Nat → Nat
  | 0, j, _ => j
  | fuel + 1, j, notfind =>
    if j < P.POPSIZE ∧ notfind ≠ 0 then
      rouletteLoop P cumfit seed fuel (j + 1)
        (if cumfit.getD j 0 ≥ seed then 0 else notfind)
    else j

/-- Function `rouletteWheel`, reading `myGA.cumfit`. -/
def rouletteWheel (P : Params) (cumfit : List Nat) (seed : Nat) : Nat :=
  usub (rouletteLoop P cumfit seed P.POPSIZE 0 1) 1

/-! ## Bit functions -/

/-- Function `readbits`: `(x >> (p + 1 - n)) & ~(((BLOCK) ~ 0x0UL) << n)`. -/
def readbits (M : Machine) (x p n : Nat) : Nat :=
  shr M x (usub (uadd p 1) n) &&& bnot (shl M (bnot 0) n)

/-- Function `readbit`: `readbits (x, p, 1)`. -/
def readbit (M : Machine) (x p : Nat) : Nat := readbits M x p 1

/-- Function `maskbit`: `~(((BLOCK) 0x1UL) << p)`. -/
def maskbit (M : Machine) (p : Nat) : Nat := bnot (shl M 1 p)

/-- Function `flipbit`: `(x & maskbit (p)) | (~x & ~maskbit (p))`. -/
def flipbit (M : Machine) (x p : Nat) : Nat :=
  (x &&& maskbit M p) ||| (bnot x &&& bnot (maskbit M p))

/-- The loop `for (c = 0; x; c++) x &= x - 1;` from the state `(x, c)`.
The first argument bounds the number of iterations; `x` of them always
suffice, since `x & (x - 1) < x` for `x != 0`. -/
def countLoop : Nat → Nat → Nat → Nat
  | 0, _, c => c
  | fuel + 1, x, c =>
    if x = 0 then c else countLoop fuel (x &&& (x - 1)) (uadd c 1)

/-- Function `countbit`: the last block is first cut to its
`BLOCK_BIT - LOST_BITS` low bits by `readbits`. -/
def countbit (M : Machine) (P : Params) (x is_lb : Nat) : Nat :=
  let x1 :=
    if is_lb ≠ 0 then
      readbits M x (BLOCK_BIT - LOST_BITS P - 1) (BLOCK_BIT - LOST_BITS P)
    else x
  countLoop x1 x1 0

/-! ## Block functions -/

/-- Function `initBlock`, on the state `(b, rng)`. -/
def initBlock (M : Machine) (lb : Nat) (s : Rng) : Nat × Rng :=
  forLoop (BLOCK_BIT - lb)
    (fun i bs =>
      ((if (flip M 50 bs.2).1 ≠ 0 then flipbit M bs.1 i else bs.1),
        (flip M 50 bs.2).2))
    (0, s)

/-- Function `mutateBlock`, on the state `(x, rng)`. -/
def mutateBlock (M : Machine) (P : Params) (x lb : Nat) (s : Rng) : Nat × Rng :=
  forLoop (BLOCK_BIT - lb)
    (fun i xs =>
      ((if (flip M P.PMUT xs.2).1 ≠ 0 then flipbit M xs.1 i else xs.1),
        (flip M P.PMUT xs.2).2))
    (x, s)

/-! ## Chromosome functions -/

/-- Function `initChrom`, on the state `(chro, rng)`. -/
def initChrom (M : Machine) (P : Params) (chro : List Nat) (s : Rng) :
    List Nat × Rng :=
  let r := forLoop (NBR_OF_BLOCK P - 1)
    (fun i cs => (cs.1.set i (initBlock M 0 cs.2).1, (initBlock M 0 cs.2).2))
    (chro, s)
  (r.1.set (NBR_OF_BLOCK P - 1) (initBlock M (LOST_BITS P) r.2).1,
    (initBlock M (LOST_BITS P) r.2).2)

/-- Function `getGene`. -/
def getGene (M : Machine) (chro : List Nat) (idx : Nat) : Nat :=
  readbit M (chro.getD (idx / BLOCK_BIT) 0) (idx % BLOCK_BIT)

/-- Function `fitness`: the full blocks, then the last block. -/
def fitness (M : Machine) (P : Params) (chro : List Nat) : Nat :=
  let res := forLoop (NBR_OF_BLOCK P - 1)
    (fun i res => uadd res (countbit M P (chro.getD i 0) 0)) 0
  uadd res (countbit M P (chro.getD (NBR_OF_BLOCK P - 1) 0) 1)

/-! ## Genetic operators -/

/-- Function `mutate`, on the state `(from, rng)`. -/
def mutate (M : Machine) (P : Params) (chro : List Nat) (s : Rng) :
    List Nat × Rng :=
  let r := forLoop (NBR_OF_BLOCK P - 1)
    (fun i cs =>
      (cs.1.set i (mutateBlock M P (cs.1.getD i 0) 0 cs.2).1,
        (mutateBlock M P (cs.1.getD i 0) 0 cs.2).2))
    (chro, s)
  (r.1.set (NBR_OF_BLOCK P - 1)
      (mutateBlock M P (r.1.getD (NBR_OF_BLOCK P - 1) 0) (LOST_BITS P) r.2).1,
    (mutateBlock M P (r.1.getD (NBR_OF_BLOCK P - 1) 0) (LOST_BITS P) r.2).2)

/-- What `crossover` leaves behind: the two children (`c2` is `none` when the
caller passed `NULL`), the `static CHROM m`, and the random stream. -/
structure Crossed where
  c1 : List Nat
  c2 : Option (List Nat)
  m : List Nat
  rng : Rng

/-- One turn of the loop of `crossover`, on the state `(c1, c2)`. -/
def crossoverStep (p1 p2 m : List Nat) (i : Nat)
    (c : List Nat × Option (List Nat)) : List Nat × Option (List Nat) :=
  (c.1.set i ((p1.getD i 0 &&& m.getD i 0) ||| (p2.getD i 0 &&& bnot (m.getD i 0))),
    c.2.map (fun c2 =>
      c2.set i ((p1.getD i 0 &&& bnot (m.getD i 0)) ||| (p2.getD i 0 &&& m.getD i 0))))

/-- Function `crossover`; `m` is the content of the `static CHROM m` on entry. -/
def crossover (M : Machine) (P : Params) (p1 p2 c1 : List Nat)
    (c2 : Option (List Nat)) (m : List Nat) (s : Rng) : Crossed :=
  let im := initChrom M P m s
  let r := forLoop (NBR_OF_BLOCK P) (crossoverStep p1 p2 im.1) (c1, c2)
  { c1 := r.1, c2 := r.2, m := im.1, rng := im.2 }

/-- Function `clone (from, to)`: the new content of `to`. -/
def clone (P : Params) (src dst : List Nat) : List Nat :=
  forLoop (NBR_OF_BLOCK P) (fun i t => t.set i (src.getD i 0)) dst

/-! ## The main data and the main functions -/

/-- The `struct ga`. -/
structure GA where
  fit : List Nat
  cumfit : List Nat
  sumfit : Nat
  bestIdx : Nat
  worstIdx : Nat
  pop : List (List Nat)
  nwpop : List (List Nat)
  ngen : Nat

/-- The whole mutable state: `myGA`, the `static CHROM m` of `crossover`, and
the random stream. -/
structure St where
  ga : GA
  m : List Nat
  rng : Rng

/-- What `allocMem` establishes: the four arrays have their sizes and every
chromosome is a `CHROM`. -/
def allocated (P : Params) (g : GA) : Prop :=
  g.fit.length = P.POPSIZE ∧ g.cumfit.length = P.POPSIZE ∧
  g.pop.length = P.POPSIZE ∧
  g.nwpop.length = (if P.GENERATIONAL ≠ 0 then P.POPSIZE else 1) ∧
  (∀ c ∈ g.pop, validChrom P c) ∧ (∀ c ∈ g.nwpop, validChrom P c)

instance (P : Params) (g : GA) : Decidable (allocated P g) := by
  unfold allocated; infer_instance

/-- Function `initialise`. -/
def initialise (M : Machine) (P : Params) (st : St) : St :=
  forLoop P.POPSIZE
    (fun i st =>
      { st with
        ga := { st.ga with
          pop := st.ga.pop.set i (initChrom M P (st.ga.pop.getD i []) st.rng).1 }
        rng := (initChrom M P (st.ga.pop.getD i []) st.rng).2 })
    st

/-- One turn of the loop of `evaluate`. -/
def evaluateStep (M : Machine) (P : Params) (i : Nat) (g : GA) : GA :=
  let g1 := { g with fit := g.fit.set i (fitness M P (g.pop.getD i [])) }
  let g2 := { g1 with sumfit := uadd g1.sumfit (g1.fit.getD i 0) }
  let g3 := { g2 with cumfit := g2.cumfit.set i g2.sumfit }
  if g3.fit.getD i 0 > g3.fit.getD g3.bestIdx 0 then { g3 with bestIdx := i }
  else if g3.fit.getD i 0 < g3.fit.getD g3.worstIdx 0 then { g3 with worstIdx := i }
  else g3

/-- Function `evaluate`. -/
def evaluate (M : Machine) (P : Params) (g : GA) : GA :=
  forLoop P.POPSIZE (evaluateStep M P)
    { g with sumfit := 0, worstIdx := 0, bestIdx := 0 }

/-- One turn of the first loop of `selectAndReproduct`. -/
def selectStep (M : Machine) (P : Params) (i : Nat) (st : St) : St :=
  let d1 := randInt M st.ga.sumfit st.rng
  let j := rouletteWheel P st.ga.cumfit d1.1
  let d2 := randInt M st.ga.sumfit d1.2
  let k := rouletteWheel P st.ga.cumfit d2.1
  let f := flip M P.CROSSOVER_PROB d2.2
  if f.1 ≠ 0 then
    let x := crossover M P (st.ga.pop.getD j []) (st.ga.pop.getD k [])
      (st.ga.nwpop.getD (i * 2) [])
      (if P.GENERATIONAL ≠ 0 then some (st.ga.nwpop.getD (i * 2 + 1) []) else none)
      st.m f.2
    let nw1 := st.ga.nwpop.set (i * 2) x.c1
    let nw2 := match x.c2 with
      | some c2 => nw1.set (i * 2 + 1) c2
      | none => nw1
    { ga := { st.ga with nwpop := nw2 }, m := x.m, rng := x.rng }
  else
    let nw1 := st.ga.nwpop.set (i * 2)
      (clone P (st.ga.pop.getD j []) (st.ga.nwpop.getD (i * 2) []))
    let nw2 :=
      if P.GENERATIONAL ≠ 0 then
        nw1.set (i * 2 + 1) (clone P (st.ga.pop.getD k []) (nw1.getD (i * 2 + 1) []))
      else nw1
    { ga := { st.ga with nwpop := nw2 }, m := st.m, rng := f.2 }

/-- The `if (GENERATIONAL && POPSIZE % 2)` statement of `selectAndReproduct`. -/
def selectOdd (M : Machine) (P : Params) (st : St) : St :=
  if P.GENERATIONAL ≠ 0 ∧ P.POPSIZE % 2 ≠ 0 then
    let d := randInt M st.ga.sumfit st.rng
    let j := rouletteWheel P st.ga.cumfit d.1
    { st with
      ga := { st.ga with
        nwpop := st.ga.nwpop.set (P.POPSIZE - 1)
          (clone P (st.ga.pop.getD j []) (st.ga.nwpop.getD (P.POPSIZE - 1) [])) }
      rng := d.2 }
  else st

/-- One turn of the last loop of `selectAndReproduct`. -/
def insertStep (M : Machine) (P : Params) (i : Nat) (st : St) : St :=
  let mu := mutate M P (st.ga.nwpop.getD i []) st.rng
  let nw := st.ga.nwpop.set i mu.1
  let t := if P.GENERATIONAL ≠ 0 then i else st.ga.worstIdx
  { st with
    ga := { st.ga with
      nwpop := nw
      pop := st.ga.pop.set t (clone P (nw.getD i []) (st.ga.pop.getD t [])) }
    rng := mu.2 }

/-- Function `selectAndReproduct`. -/
def selectAndReproduct (M : Machine) (P : Params) (st : St) : St :=
  let s1 := forLoop (if P.GENERATIONAL ≠ 0 then P.POPSIZE / 2 else 1)
    (selectStep M P) st
  let s2 := selectOdd M P s1
  forLoop (if P.GENERATIONAL ≠ 0 then P.POPSIZE else 1) (insertStep M P) s2

/-- The `while` loop of `main`. The first argument bounds the number of
outer cycles; `GENERATIONS - ngen` of them always suffice, since `ngen` grows
by one each cycle. -/
def mainLoop (M : Machine) (P : Params) : Nat → St → St
  | 0, st => st
  | fuel + 1, st =>
    if st.ga.ngen < P.GENERATIONS ∧ st.ga.fit.getD st.ga.bestIdx 0 < P.LEN then
      let s1 := forLoop (if P.GENERATIONAL ≠ 0 then 1 else P.POPSIZE)
        (fun _ s =>
          { selectAndReproduct M P s with
            ga := evaluate M P (selectAndReproduct M P s).ga })
        st
      mainLoop M P fuel { s1 with ga := { s1.ga with ngen := uadd s1.ga.ngen 1 } }
    else st

/-- The part of `main` after `allocMem`: the final state, and whether
`SUCCESS` is printed. -/
def main (M : Machine) (P : Params) (st : St) : St × Bool :=
  let s0 := initialise M P st
  let s1 := { s0 with ga := evaluate M P s0.ga }
  let s2 := mainLoop M P (P.GENERATIONS - s1.ga.ngen) s1
  (s2, decide (s2.ga.fit.getD s2.ga.bestIdx 0 = P.LEN))

/-! ## Specification-side notions -/

/-- Number of set bits of a natural number (specification of the loop of
`countbit`). -/
def popcount : Nat → Nat :=
  Nat.binaryRec 0 (fun b _ r => b.toNat + r)


/-- Sum of the fitness of the first `i` individuals of a population, without
reduction. -/
def fitSum (M : Machine) (P : Params) (pop : List (List Nat)) (i : Nat) : Nat :=
  ∑ k in Finset.range i, fitness M P (pop.getD k [])

/-- The loop invariant of `evaluate`: the state `G` reached from `g` after
the individuals `0 .. i-1` have been scanned. -/
structure EvalInv (M : Machine) (P : Params) (g : GA) (i : Nat) (G : GA) : Prop where
  pop_eq : G.pop = g.pop
  nwpop_eq : G.nwpop = g.nwpop
  ngen_eq : G.ngen = g.ngen
  fit_len : G.fit.length = g.fit.length
  cum_len : G.cumfit.length = g.cumfit.length
  fit_eq : ∀ k, k < i → G.fit.getD k 0 = fitness M P (g.pop.getD k [])
  sum_eq : G.sumfit = fitSum M P g.pop i % UINT_MOD
  cum_eq : ∀ k, k < i → G.cumfit.getD k 0 = fitSum M P g.pop (k + 1) % UINT_MOD
  best_le : G.bestIdx ≤ i - 1
  worst_le : G.worstIdx ≤ i - 1
  best_max : ∀ k, k < i →
    fitness M P (g.pop.getD k []) ≤ fitness M P (g.pop.getD G.bestIdx [])
  best_first : ∀ k, k < G.bestIdx →
    fitness M P (g.pop.getD k []) < fitness M P (g.pop.getD G.bestIdx [])
  worst_min : ∀ k, k < i →
    fitness M P (g.pop.getD G.worstIdx []) ≤ fitness M P (g.pop.getD k [])
  worst_first : ∀ k, k < G.worstIdx →
    fitness M P (g.pop.getD G.worstIdx []) < fitness M P (g.pop.getD k [])

/-- A small configuration used to instantiate the theorems: four individuals
of twelve bits, one block each, generational. -/
def demoParams : Params :=
  { POPSIZE := 4, LEN := 12, GENERATIONS := 10, CROSSOVER_PROB := 70, PMUT := 10,
    GENERATIONAL := 1 }

/-- A state as `allocMem` and some earlier activity may have left it, for
`demoParams`. -/
def demoGA : GA :=
  { fit := [0, 0, 0, 0], cumfit := [0, 0, 0, 0], sumfit := 0, bestIdx := 0, worstIdx := 0,
    pop := [[0x0F0], [0xFFF], [0x001], [0xF0F]],
    nwpop := [[0], [0], [0], [0]], ngen := 0 }

/-- An array `a` of `POPSIZE` chromosomes whose first `n` slots each hold a
copy of some individual of the population `pop`. -/
def CopiesOf (P : Params) (pop : List (List Nat)) (n : Nat) (a : List (List Nat)) : Prop :=
  a.length = P.POPSIZE ∧
  (∀ t, t < a.length → (a.getD t []).length = NBR_OF_BLOCK P) ∧
  (∀ t, t < n → ∃ j, j < P.POPSIZE ∧ a.getD t [] = pop.getD j [])

/-- The demo configuration without crossover and without mutation. -/
def demoCloneParams : Params :=
  { demoParams with CROSSOVER_PROB := 0, PMUT := 0 }

/-- The demo configuration in steady-state mode. -/
def demoSteadyParams : Params :=
  { demoParams with GENERATIONAL := 0 }

/-- The demo population after `evaluate`, with a mask buffer and a stream of
raw draws. -/
def demoState : St :=
  { ga := evaluate maskingMachine demoParams demoGA, m := [0],
    rng := fun n => (n * 1103515245 + 12345) % 2147483648 }

/-- The same state with the one-slot offspring array of steady-state mode. -/
def demoSteadyState : St :=
  { demoState with ga := { demoState.ga with nwpop := [[0]] } }

/-- Number of seeds `s` in `[0, n)` for which `rouletteWheel (s)` returns the
index `i`. -/
def seedCount (P : Params) (cumfit : List Nat) (n i : Nat) : Nat :=
  ((List.range n).filter (fun s => rouletteWheel P cumfit s = i)).length

/-- Two individuals of twelve bits: the first has no bit set, the second has
one. -/
def demoPairParams : Params :=
  { demoParams with POPSIZE := 2 }

/-- The state of `demoPairParams` before `evaluate`. -/
def demoPairGA : GA :=
  { fit := [0, 0], cumfit := [0, 0], sumfit := 0, bestIdx := 0, worstIdx := 0,
    pop := [[0x000], [0x001]], nwpop := [[0], [0]], ngen := 0 }

/-- A population of `demoParams` in which no individual has a bit set. -/
def demoZeroGA : GA :=
  { demoGA with pop := [[0], [0], [0], [0]] }

/-- One turn of a scan that tests the best and the worst independently at
every position: the loop body of `evaluate` with the `else` removed. -/
def evaluateStepIndep (M : Machine) (P : Params) (i : Nat) (g : GA) : GA :=
  let g1 := { g with fit := g.fit.set i (fitness M P (g.pop.getD i [])) }
  let g2 := { g1 with sumfit := uadd g1.sumfit (g1.fit.getD i 0) }
  let g3 := { g2 with cumfit := g2.cumfit.set i g2.sumfit }
  let g4 := if g3.fit.getD i 0 > g3.fit.getD g3.bestIdx 0 then { g3 with bestIdx := i } else g3
  if g4.fit.getD i 0 < g4.fit.getD g4.worstIdx 0 then { g4 with worstIdx := i } else g4

/-- The scan that tests the best and the worst independently. -/
def evaluateIndep (M : Machine) (P : Params) (g : GA) : GA :=
  forLoop P.POPSIZE (evaluateStepIndep M P)
    { g with sumfit := 0, worstIdx := 0, bestIdx := 0 }

/-- The condition of the `while` of `main`:
`myGA.ngen < GENERATIONS && myGA.fit[myGA.bestIdx] < LEN`. -/
def mainCond (P : Params) (st : St) : Prop :=
  st.ga.ngen < P.GENERATIONS ∧ st.ga.fit.getD st.ga.bestIdx 0 < P.LEN

instance (P : Params) (st : St) : Decidable (mainCond P st) := by
  unfold mainCond; infer_instance

/-- One outer cycle, the body of the `while` of `main`: the inner `for` loop
of `selectAndReproduct (); evaluate ();`, then `++myGA.ngen`. -/
def mainCycle (M : Machine) (P : Params) (st : St) : St :=
  let s1 := forLoop (if P.GENERATIONAL ≠ 0 then 1 else P.POPSIZE)
    (fun _ s =>
      { selectAndReproduct M P s with
        ga := evaluate M P (selectAndReproduct M P s).ga })
    st
  { s1 with ga := { s1.ga with ngen := uadd s1.ga.ngen 1 } }

/-- The state in which `main` enters its `while` loop: after `initialise ()`
and `evaluate ()`. -/
def mainStart (M : Machine) (P : Params) (st : St) : St :=
  { initialise M P st with ga := evaluate M P (initialise M P st).ga }

/-- Number of logical positions `i` in `[0, LEN)` with `getGene (chro, i) == 1`:
the score as the comment on `fitness` says it could be computed. -/
def geneCount (M : Machine) (P : Params) (chro : List Nat) : Nat :=
  ((List.range P.LEN).filter (fun i => getGene M chro i = 1)).length

/-! ## Loops that fill an array -/

theorem forLoop_succ {σ : Type} (n : Nat) (body : Nat → σ → σ) (s : σ) :
    forLoop (n + 1) body s = body n (forLoop n body s) := rfl

theorem getD_set_eq_ite {α : Type} (l : List α) (i k : Nat) (a d : α) :
    (l.set i a).getD k d = if i = k ∧ k < l.length then a else l.getD k d := by
  simp only [List.getD_eq_getElem?_getD, List.getElem?_set]
  by_cases h : i = k
  · subst h
    by_cases h2 : i < l.length
    · simp [h2]
    · simp [h2, List.getElem?_eq_none (Nat.le_of_not_lt h2)]
  · simp [h]

theorem forLoop_set_length {α : Type} (f : Nat → α) (n : Nat) (t : List α) :
    (forLoop n (fun i t => t.set i (f i)) t).length = t.length := by
  induction n with
  | zero => rfl
  | succ n ih => rw [forLoop_succ, List.length_set, ih]

theorem forLoop_set_getD {α : Type} (f : Nat → α) (n : Nat) (t : List α)
    (k : Nat) (d : α) :
    (forLoop n (fun i t => t.set i (f i)) t).getD k d
      = if k < n ∧ k < t.length then f k else t.getD k d := by
  induction n with
  | zero => simp [forLoop]
  | succ n ih =>
    rw [forLoop_succ, getD_set_eq_ite, forLoop_set_length, ih]
    by_cases h1 : n = k
    · subst h1
      by_cases h2 : n < t.length
      · simp [h2]
      · simp [h2]
    · have h3 : (k < n + 1) = (k < n) := by
        apply propext; constructor <;> intro h <;> omega
      simp only [h1, false_and, if_false, h3]

/-! ## Bit-level facts -/

theorem testBit_bnot (x i : Nat) :
    (bnot x).testBit i = (x.testBit i ^^ decide (i < BLOCK_BIT)) := by
  unfold bnot BLOCK_MOD
  rw [Nat.testBit_xor, Nat.testBit_two_pow_sub_one]

theorem testBit_block_high {x i : Nat} (hx : x < BLOCK_MOD) (hi : BLOCK_BIT ≤ i) :
    x.testBit i = false := by
  apply Nat.testBit_lt_two_pow
  exact lt_of_lt_of_le hx (Nat.pow_le_pow_right (by decide) hi)

theorem crossover_block_xor (a b m : Nat) (ha : a < BLOCK_MOD) (hb : b < BLOCK_MOD) :
    ((a &&& m) ||| (b &&& bnot m)) ^^^ ((a &&& bnot m) ||| (b &&& m)) = a ^^^ b := by
  apply Nat.eq_of_testBit_eq
  intro i
  simp only [Nat.testBit_xor, Nat.testBit_or, Nat.testBit_and, testBit_bnot]
  by_cases hi : i < BLOCK_BIT
  · simp only [hi, decide_True]
    cases a.testBit i <;> cases b.testBit i <;> cases m.testBit i <;> rfl
  · rw [testBit_block_high ha (Nat.le_of_not_lt hi), testBit_block_high hb (Nat.le_of_not_lt hi)]
    simp

theorem getD_lt_of_valid {P : Params} {c : List Nat} (h : validChrom P c) (k : Nat) :
    c.getD k 0 < BLOCK_MOD := by
  rw [List.getD_eq_getElem?_getD]
  by_cases hk : k < c.length
  · rw [List.getElem?_eq_getElem hk]
    exact h.2 _ (List.getElem_mem hk)
  · rw [List.getElem?_eq_none (Nat.le_of_not_lt hk)]
    exact Nat.two_pow_pos _

/-! ## crossover -/

theorem crossover_loop_both (p1 p2 m : List Nat) (n : Nat) (c1 c2 : List Nat) :
    forLoop n (crossoverStep p1 p2 m) (c1, some c2)
      = (forLoop n (fun i t => t.set i
            ((p1.getD i 0 &&& m.getD i 0) ||| (p2.getD i 0 &&& bnot (m.getD i 0)))) c1,
         some (forLoop n (fun i t => t.set i
            ((p1.getD i 0 &&& bnot (m.getD i 0)) ||| (p2.getD i 0 &&& m.getD i 0))) c2)) := by
  induction n with
  | zero => rfl
  | succ n ih => rw [forLoop_succ, ih]; rfl

/-- C1: when both children are requested, `crossover` returns a second
child, and in every block (padding included) the bitwise XOR of the two
children equals the bitwise XOR of the two parents, whatever mask was drawn. -/
theorem crossover_xor_invariant (M : Machine) (P : Params)
    (p1 p2 c1 c2 m : List Nat) (s : Rng)
    (hp1 : validChrom P p1) (hp2 : validChrom P p2)
    (hc1 : c1.length = NBR_OF_BLOCK P) (hc2 : c2.length = NBR_OF_BLOCK P) :
    ∃ d2, (crossover M P p1 p2 c1 (some c2) m s).c2 = some d2 ∧
      ∀ k, k < NBR_OF_BLOCK P →
        (crossover M P p1 p2 c1 (some c2) m s).c1.getD k 0 ^^^ d2.getD k 0
          = p1.getD k 0 ^^^ p2.getD k 0 := by
  simp only [crossover, crossover_loop_both]
  refine ⟨_, rfl, ?_⟩
  intro k hk
  rw [forLoop_set_getD, forLoop_set_getD]
  simp only [hc1, hc2, hk, and_self, if_true]
  exact crossover_block_xor _ _ _ (getD_lt_of_valid hp1 k) (getD_lt_of_valid hp2 k)

/-- Witness for C1: two one-block parents of an 8-bit chromosome. -/
theorem crossover_xor_invariant_witness :
    ∃ d2, (crossover maskingMachine { builtin with LEN := 8 } [0xA5] [0x3C] [0] (some [0])
          [0] (fun n => n * 1000003)).c2 = some d2 ∧
      ∀ k, k < NBR_OF_BLOCK { builtin with LEN := 8 } →
        (crossover maskingMachine { builtin with LEN := 8 } [0xA5] [0x3C] [0] (some [0])
          [0] (fun n => n * 1000003)).c1.getD k 0 ^^^ d2.getD k 0
          = [0xA5].getD k 0 ^^^ [0x3C].getD k 0 :=
  crossover_xor_invariant maskingMachine { builtin with LEN := 8 } [0xA5] [0x3C] [0] [0]
    [0] (fun n => n * 1000003) (by decide) (by decide) (by decide) (by decide)

/-! ## The counting loop -/

theorem popcount_zero : popcount 0 = 0 := by
  unfold popcount; exact Nat.binaryRec_zero _ _

theorem popcount_bit (b : Bool) (n : Nat) :
    popcount (Nat.bit b n) = b.toNat + popcount n := by
  unfold popcount
  rw [Nat.binaryRec_eq]
  left; rfl

theorem popcount_and_pred (x : Nat) (hx : x ≠ 0) :
    popcount (x &&& (x - 1)) + 1 = popcount x := by
  induction x using Nat.binaryRec with
  | z => exact absurd rfl hx
  | f b n ih =>
    cases b with
    | true =>
      have h1 : Nat.bit true n - 1 = Nat.bit false n := by
        simp [Nat.bit_val]
      rw [h1, Nat.land_bit, popcount_bit, popcount_bit, Nat.and_self]
      simp; omega
    | false =>
      have hn : n ≠ 0 := by
        intro h; apply hx; simp [h]
      have h1 : Nat.bit false n - 1 = Nat.bit true (n - 1) := by
        simp [Nat.bit_val]; omega
      rw [h1, Nat.land_bit, popcount_bit, popcount_bit]
      have := ih hn
      simp; omega

theorem popcount_le_of_lt_two_pow (n : Nat) : ∀ x, x < 2 ^ n → popcount x ≤ n := by
  induction n with
  | zero =>
    intro x hx
    have : x = 0 := by simpa using hx
    subst this; simp [popcount_zero]
  | succ n ih =>
    intro x hx
    rw [← Nat.bit_decomp x, popcount_bit]
    have h1 : x.div2 < 2 ^ n := by
      rw [Nat.div2_val]; rw [Nat.pow_succ] at hx; omega
    have h2 := ih _ h1
    have h3 : x.bodd.toNat ≤ 1 := by cases x.bodd <;> simp
    omega

theorem and_pred_lt (x : Nat) (hx : x ≠ 0) : x &&& (x - 1) < x := by
  have h1 : x &&& (x - 1) ≤ x - 1 := Nat.and_le_right
  omega

/-- Any bound on the iterations that is at least `x` gives the same result:
the number of set bits of `x`, added to the counter. -/
theorem countLoop_eq (f : Nat) : ∀ x c, x ≤ f → c + popcount x < UINT_MOD →
    countLoop f x c = c + popcount x := by
  induction f with
  | zero =>
    intro x c hx _
    have : x = 0 := by omega
    subst this
    simp [countLoop, popcount_zero]
  | succ f ih =>
    intro x c hx hc
    unfold countLoop
    by_cases h0 : x = 0
    · subst h0; simp [popcount_zero]
    · rw [if_neg h0]
      have h1 := and_pred_lt x h0
      have h2 := popcount_and_pred x h0
      have h3 : uadd c 1 = c + 1 := by
        unfold uadd; apply Nat.mod_eq_of_lt; omega
      rw [h3, ih _ _ (by omega) (by omega)]
      omega

theorem popcount_block_le {x : Nat} (hx : x < BLOCK_MOD) : popcount x ≤ BLOCK_BIT :=
  popcount_le_of_lt_two_pow BLOCK_BIT x hx

theorem countLoop_self {x : Nat} (hx : x < BLOCK_MOD) : countLoop x x 0 = popcount x := by
  have h := popcount_block_le hx
  rw [countLoop_eq x x 0 (le_refl _)]
  · simp
  · unfold UINT_MOD; unfold BLOCK_BIT at h; omega

/-! ## Geometry of a chromosome -/

theorem nbr_pos {P : Params} (h : P.valid) : 0 < NBR_OF_BLOCK P := by
  unfold Params.valid at h; unfold NBR_OF_BLOCK BLOCK_BIT
  split <;> omega

theorem lost_lt {P : Params} : LOST_BITS P < BLOCK_BIT := by
  unfold LOST_BITS NBR_OF_BLOCK BLOCK_BIT
  split <;> omega

theorem len_eq {P : Params} (h : P.valid) :
    P.LEN = (NBR_OF_BLOCK P - 1) * BLOCK_BIT + (BLOCK_BIT - LOST_BITS P) := by
  unfold Params.valid at h; unfold LOST_BITS NBR_OF_BLOCK BLOCK_BIT
  split <;> omega

/-! ## readbits on the last block -/

theorem shl_lt (M : Machine) (x n : Nat) : shl M x n < BLOCK_MOD := by
  unfold shl; split <;> exact Nat.mod_lt _ (Nat.two_pow_pos _)

theorem bnot_lt {x : Nat} (hx : x < BLOCK_MOD) : bnot x < BLOCK_MOD := by
  unfold bnot
  exact Nat.xor_lt_two_pow hx (Nat.sub_lt (Nat.two_pow_pos _) (by decide))

theorem bnot_zero : bnot 0 = BLOCK_MOD - 1 := by
  unfold bnot; simp

/-- The mask of `readbits` for a count below the block width: the `n` low bits. -/
theorem readbits_mask {M : Machine} {n : Nat} (hn : n < BLOCK_BIT) :
    bnot (shl M (bnot 0) n) = 2 ^ n - 1 := by
  apply Nat.eq_of_testBit_eq
  intro i
  rw [testBit_bnot, bnot_zero]
  unfold shl
  rw [if_pos hn]
  unfold BLOCK_MOD
  rw [Nat.testBit_mod_two_pow, Nat.testBit_shiftLeft, Nat.testBit_two_pow_sub_one,
    Nat.testBit_two_pow_sub_one]
  by_cases h1 : i < BLOCK_BIT
  · by_cases h2 : i < n
    · have : ¬ (i ≥ n) := by omega
      simp [h1, h2, this]
    · have h3 : i ≥ n := by omega
      have h4 : i - n < BLOCK_BIT := by omega
      simp [h1, h2, h3, h4]
  · have : ¬ (i < n) := by omega
    simp [h1, this]

/-- How `countbit` reads the last block: the shift count is zero. -/
theorem readbits_last (M : Machine) (P : Params) (x : Nat) :
    readbits M x (BLOCK_BIT - LOST_BITS P - 1) (BLOCK_BIT - LOST_BITS P)
      = x &&& bnot (shl M (bnot 0) (BLOCK_BIT - LOST_BITS P)) := by
  have hl := @lost_lt P
  unfold readbits
  have h : usub (uadd (BLOCK_BIT - LOST_BITS P - 1) 1) (BLOCK_BIT - LOST_BITS P) = 0 := by
    unfold usub uadd UINT_MOD; unfold BLOCK_BIT at *; omega
  rw [h]
  unfold shr
  simp [BLOCK_BIT]

theorem readbits_last_lt (M : Machine) (P : Params) {x : Nat} (hx : x < BLOCK_MOD) :
    readbits M x (BLOCK_BIT - LOST_BITS P - 1) (BLOCK_BIT - LOST_BITS P)
      < 2 ^ (BLOCK_BIT - LOST_BITS P) := by
  rw [readbits_last]
  by_cases h0 : LOST_BITS P = 0
  · rw [h0]
    exact lt_of_le_of_lt Nat.and_le_left hx
  · have hn : BLOCK_BIT - LOST_BITS P < BLOCK_BIT := by
      unfold BLOCK_BIT; omega
    rw [readbits_mask hn, Nat.and_pow_two_sub_one_eq_mod]
    exact Nat.mod_lt _ (Nat.two_pow_pos _)

theorem countbit_full (M : Machine) (P : Params) {x : Nat} (hx : x < BLOCK_MOD) :
    countbit M P x 0 = popcount x := by
  unfold countbit
  simp only [ne_eq, not_true_eq_false, if_false]
  exact countLoop_self hx

theorem countbit_last (M : Machine) (P : Params) {x : Nat} (hx : x < BLOCK_MOD) :
    countbit M P x 1
      = popcount (readbits M x (BLOCK_BIT - LOST_BITS P - 1) (BLOCK_BIT - LOST_BITS P)) := by
  unfold countbit
  simp only [ne_eq, one_ne_zero, not_false_eq_true, if_true]
  apply countLoop_self
  have h := readbits_last_lt M P hx
  exact lt_of_lt_of_le h (Nat.pow_le_pow_right (by decide) (Nat.sub_le _ _))

theorem countbit_last_le (M : Machine) (P : Params) {x : Nat} (hx : x < BLOCK_MOD) :
    countbit M P x 1 ≤ BLOCK_BIT - LOST_BITS P := by
  rw [countbit_last M P hx]
  exact popcount_le_of_lt_two_pow _ _ (readbits_last_lt M P hx)

/-! ## fitness -/

/-- The sum that `fitness` accumulates over the full blocks, without
reduction. -/
theorem fitness_full_loop (M : Machine) (P : Params) (chro : List Nat)
    (hc : ∀ k, chro.getD k 0 < BLOCK_MOD) (n : Nat) (hn : n * BLOCK_BIT < UINT_MOD) :
    forLoop n (fun i res => uadd res (countbit M P (chro.getD i 0) 0)) 0
        = ((List.range n).map (fun i => popcount (chro.getD i 0))).sum ∧
      ((List.range n).map (fun i => popcount (chro.getD i 0))).sum ≤ n * BLOCK_BIT := by
  induction n with
  | zero => simp [forLoop]
  | succ n ih =>
    have hn1 : n * BLOCK_BIT < UINT_MOD := by
      have : n * BLOCK_BIT ≤ (n + 1) * BLOCK_BIT := Nat.mul_le_mul_right _ (Nat.le_succ n)
      omega
    obtain ⟨h1, h2⟩ := ih hn1
    have h3 := popcount_block_le (hc n)
    have h4 : (n + 1) * BLOCK_BIT = n * BLOCK_BIT + BLOCK_BIT := by ring
    rw [forLoop_succ, h1, countbit_full M P (hc n), List.range_succ, List.map_append,
      List.sum_append]
    simp only [List.map_cons, List.map_nil, List.sum_cons, List.sum_nil, Nat.add_zero]
    constructor
    · unfold uadd; apply Nat.mod_eq_of_lt; omega
    · omega

/-- The value of `fitness`, block by block. -/
theorem fitness_eq (M : Machine) (P : Params) (chro : List Nat)
    (hP : P.valid) (hc : validChrom P chro) :
    fitness M P chro
      = ((List.range (NBR_OF_BLOCK P - 1)).map (fun i => popcount (chro.getD i 0))).sum
        + popcount (readbits M (chro.getD (NBR_OF_BLOCK P - 1) 0)
            (BLOCK_BIT - LOST_BITS P - 1) (BLOCK_BIT - LOST_BITS P)) ∧
    fitness M P chro ≤ P.LEN := by
  have hlen := len_eq hP
  have hl := @lost_lt P
  have hv := hP
  unfold Params.valid at hv
  have hb : (NBR_OF_BLOCK P - 1) * BLOCK_BIT < UINT_MOD := by
    unfold UINT_MOD; omega
  obtain ⟨h1, h2⟩ := fitness_full_loop M P chro (getD_lt_of_valid hc) _ hb
  have h3 := countbit_last_le M P (getD_lt_of_valid hc (NBR_OF_BLOCK P - 1))
  have h5 : fitness M P chro
      = ((List.range (NBR_OF_BLOCK P - 1)).map (fun i => popcount (chro.getD i 0))).sum
        + countbit M P (chro.getD (NBR_OF_BLOCK P - 1) 0) 1 := by
    unfold fitness
    simp only [h1]
    unfold uadd; apply Nat.mod_eq_of_lt
    unfold UINT_MOD; omega
  constructor
  · rw [h5, countbit_last M P (getD_lt_of_valid hc _)]
  · rw [h5]; omega

/-- C2: for every chromosome of `NBR_OF_BLOCK` 32-bit blocks, whatever its
padding bits hold and whatever an over-wide shift yields, `fitness` is at most
`LEN` (and at least 0, being an unsigned value). -/
theorem fitness_range (M : Machine) (P : Params) (chro : List Nat)
    (hP : P.valid) (hc : validChrom P chro) :
    0 ≤ fitness M P chro ∧ fitness M P chro ≤ P.LEN :=
  ⟨Nat.zero_le _, (fitness_eq M P chro hP hc).2⟩

/-- Witness for C2: the built-in configuration and a chromosome of four
blocks. -/
theorem fitness_range_witness :
    0 ≤ fitness maskingMachine builtin [0xFFFFFFFF, 0, 0x12345678, 0xFFFFFFFF] ∧
      fitness maskingMachine builtin [0xFFFFFFFF, 0, 0x12345678, 0xFFFFFFFF] ≤ builtin.LEN :=
  fitness_range maskingMachine builtin [0xFFFFFFFF, 0, 0x12345678, 0xFFFFFFFF]
    (by decide) (by decide)


/-- C3, at the built-in configuration: on a machine that reduces shift counts
modulo the width, the mask of `readbits (x, 31, 32)` is 0, the last block
counts for nothing, and the all-ones chromosome scores 96, not `LEN = 128`. -/
theorem fitness_all_ones_builtin_masking :
    LOST_BITS builtin = 0 ∧
    readbits maskingMachine 0xFFFFFFFF (BLOCK_BIT - 1) BLOCK_BIT = 0 ∧
    fitness maskingMachine builtin [0xFFFFFFFF, 0xFFFFFFFF, 0xFFFFFFFF, 0xFFFFFFFF] = 96 ∧
    builtin.LEN = 128 := by
  decide

theorem fitness_all_ones_builtin_zeroing :
    fitness zeroingMachine builtin [0xFFFFFFFF, 0xFFFFFFFF, 0xFFFFFFFF, 0xFFFFFFFF] = 128 := by
  decide


/-! ## The all-ones and all-zeros chromosomes -/

theorem popcount_two_pow_sub_one (n : Nat) : popcount (2 ^ n - 1) = n := by
  induction n with
  | zero => simp [popcount_zero]
  | succ n ih =>
    have h : 2 ^ (n + 1) - 1 = Nat.bit true (2 ^ n - 1) := by
      have := Nat.two_pow_pos n
      rw [Nat.bit_val, Nat.pow_succ]; simp; omega
    rw [h, popcount_bit, ih]; simp; omega

theorem getD_replicate_lt {n k : Nat} (a : Nat) (h : k < n) :
    (List.replicate n a).getD k 0 = a := by
  rw [List.getD_eq_getElem _ _ (by simpa using h)]
  simp

theorem sum_map_range_const (f : Nat → Nat) (c : Nat) :
    ∀ n, (∀ i, i < n → f i = c) → ((List.range n).map f).sum = n * c := by
  intro n
  induction n with
  | zero => intro _; simp
  | succ n ih =>
    intro h
    rw [List.range_succ, List.map_append, List.sum_append, ih (fun i hi => h i (by omega))]
    simp [h n (by omega)]; ring

theorem validChrom_replicate (P : Params) {a : Nat} (ha : a < BLOCK_MOD) :
    validChrom P (List.replicate (NBR_OF_BLOCK P) a) := by
  refine ⟨by simp, ?_⟩
  intro b hb
  rw [List.eq_of_mem_replicate hb]; exact ha

/-- The all-zeros chromosome scores 0, for every configuration and every
machine. -/
theorem fitness_all_zeros (M : Machine) (P : Params) (hP : P.valid) :
    fitness M P (List.replicate (NBR_OF_BLOCK P) 0) = 0 := by
  have hn := nbr_pos hP
  have hv := validChrom_replicate P (show 0 < BLOCK_MOD from Nat.two_pow_pos _)
  rw [(fitness_eq M P _ hP hv).1]
  rw [sum_map_range_const _ 0 _ (fun i hi => by
    rw [getD_replicate_lt 0 (by omega)]; exact popcount_zero)]
  rw [getD_replicate_lt 0 (by omega), readbits_last]
  simp [popcount_zero]

/-- The all-ones chromosome scores `LEN` on every machine when the last block
has padding (`LOST_BITS > 0`): the shift of `readbits` is then in range. -/
theorem fitness_all_ones_of_lost_pos (M : Machine) (P : Params) (hP : P.valid)
    (hl : 0 < LOST_BITS P) :
    fitness M P (List.replicate (NBR_OF_BLOCK P) (BLOCK_MOD - 1)) = P.LEN := by
  have hn := nbr_pos hP
  have hlt := @lost_lt P
  have hv := validChrom_replicate P
    (show BLOCK_MOD - 1 < BLOCK_MOD from Nat.sub_lt (Nat.two_pow_pos _) (by decide))
  rw [(fitness_eq M P _ hP hv).1]
  rw [sum_map_range_const _ BLOCK_BIT _ (fun i hi => by
    rw [getD_replicate_lt _ (by omega)]; exact popcount_two_pow_sub_one BLOCK_BIT)]
  rw [getD_replicate_lt _ (by omega), readbits_last,
    readbits_mask (show BLOCK_BIT - LOST_BITS P < BLOCK_BIT by omega)]
  have hle : 2 ^ (BLOCK_BIT - LOST_BITS P) - 1 ≤ BLOCK_MOD - 1 := by
    apply Nat.sub_le_sub_right
    exact Nat.pow_le_pow_right (by decide) (Nat.sub_le _ _)
  have hand : (BLOCK_MOD - 1) &&& (2 ^ (BLOCK_BIT - LOST_BITS P) - 1)
      = 2 ^ (BLOCK_BIT - LOST_BITS P) - 1 := by
    rw [Nat.and_pow_two_sub_one_eq_mod]
    apply Nat.eq_of_testBit_eq
    intro i
    unfold BLOCK_MOD
    rw [Nat.testBit_mod_two_pow, Nat.testBit_two_pow_sub_one, Nat.testBit_two_pow_sub_one]
    by_cases h1 : i < BLOCK_BIT - LOST_BITS P
    · have : i < BLOCK_BIT := by omega
      simp [h1, this]
    · simp [h1]
  rw [hand, popcount_two_pow_sub_one]
  have := len_eq hP
  omega

/-- The all-ones chromosome scores `LEN` without padding too, on a machine
whose over-wide shift of the all-ones block yields 0. -/
theorem fitness_all_ones_of_shift_zero (M : Machine) (P : Params) (hP : P.valid)
    (hl : LOST_BITS P = 0) (hM : M.shlWide (BLOCK_MOD - 1) BLOCK_BIT % BLOCK_MOD = 0) :
    fitness M P (List.replicate (NBR_OF_BLOCK P) (BLOCK_MOD - 1)) = P.LEN := by
  have hn := nbr_pos hP
  have hv := validChrom_replicate P
    (show BLOCK_MOD - 1 < BLOCK_MOD from Nat.sub_lt (Nat.two_pow_pos _) (by decide))
  rw [(fitness_eq M P _ hP hv).1]
  rw [sum_map_range_const _ BLOCK_BIT _ (fun i hi => by
    rw [getD_replicate_lt _ (by omega)]; exact popcount_two_pow_sub_one BLOCK_BIT)]
  rw [getD_replicate_lt _ (by omega), readbits_last, hl]
  have hs : shl M (bnot 0) (BLOCK_BIT - 0) = 0 := by
    unfold shl
    rw [bnot_zero, if_neg (by simp), Nat.sub_zero, hM]
  rw [hs, bnot_zero, Nat.and_self]
  have h2 := popcount_two_pow_sub_one BLOCK_BIT
  unfold BLOCK_MOD
  rw [h2]
  have := len_eq hP
  omega

/-- Without padding, on a machine that reduces the shift count modulo the
width, the last block of every chromosome counts for nothing. -/
theorem countbit_last_masking (P : Params) (hl : LOST_BITS P = 0) (x : Nat) :
    countbit maskingMachine P x 1 = 0 := by
  unfold countbit
  simp only [ne_eq, one_ne_zero, not_false_eq_true, if_true]
  rw [readbits_last, hl]
  have hs : bnot (shl maskingMachine (bnot 0) (BLOCK_BIT - 0)) = 0 := by decide
  rw [hs, Nat.and_zero]
  rfl

/-! ## rouletteWheel -/

theorem rouletteLoop_stop (P : Params) (cf : List Nat) (seed fuel j : Nat) :
    rouletteLoop P cf seed fuel j 0 = j := by
  cases fuel <;> simp [rouletteLoop]

/-- The scan stops right after the first entry that reaches the seed. -/
theorem rouletteLoop_found (P : Params) (cf : List Nat) (seed t : Nat)
    (ht : t < P.POPSIZE) (hge : cf.getD t 0 ≥ seed) :
    ∀ fuel j nf, nf ≠ 0 → j ≤ t → t - j < fuel →
      (∀ k, j ≤ k → k < t → cf.getD k 0 < seed) →
      rouletteLoop P cf seed fuel j nf = t + 1 := by
  intro fuel
  induction fuel with
  | zero => intro j nf _ _ h; omega
  | succ fuel ih =>
    intro j nf hnf hj hf hlow
    have hc : j < P.POPSIZE ∧ nf ≠ 0 := ⟨by omega, hnf⟩
    rw [rouletteLoop, if_pos hc]
    by_cases hjt : j = t
    · subst hjt
      rw [if_pos hge, rouletteLoop_stop]
    · have hlt : cf.getD j 0 < seed := hlow j (le_refl _) (by omega)
      rw [if_neg (by omega)]
      exact ih (j + 1) nf hnf (by omega) (by omega)
        (fun k hk1 hk2 => hlow k (by omega) hk2)

/-- The scan runs to `POPSIZE` when no entry reaches the seed. -/
theorem rouletteLoop_none (P : Params) (cf : List Nat) (seed : Nat) :
    ∀ fuel j nf, nf ≠ 0 → j ≤ P.POPSIZE → P.POPSIZE - j ≤ fuel →
      (∀ k, j ≤ k → k < P.POPSIZE → cf.getD k 0 < seed) →
      rouletteLoop P cf seed fuel j nf = P.POPSIZE := by
  intro fuel
  induction fuel with
  | zero => intro j nf _ _ h _; simp only [rouletteLoop]; omega
  | succ fuel ih =>
    intro j nf hnf hj hf hlow
    rw [rouletteLoop]
    by_cases hjn : j < P.POPSIZE
    · rw [if_pos ⟨hjn, hnf⟩]
      have hlt : cf.getD j 0 < seed := hlow j (le_refl _) hjn
      rw [if_neg (by omega)]
      exact ih (j + 1) nf hnf (by omega) (by omega)
        (fun k hk1 hk2 => hlow k (by omega) hk2)
    · rw [if_neg (by intro h; exact hjn h.1)]
      omega

/-- Where the scan can stop: after at least one turn, at `POPSIZE` at most. -/
theorem rouletteLoop_bounds (P : Params) (cf : List Nat) (seed : Nat) :
    ∀ fuel j nf, nf ≠ 0 → j < P.POPSIZE → P.POPSIZE - j ≤ fuel →
      j + 1 ≤ rouletteLoop P cf seed fuel j nf ∧
        rouletteLoop P cf seed fuel j nf ≤ P.POPSIZE := by
  intro fuel
  induction fuel with
  | zero => intro j nf _ hj h; omega
  | succ fuel ih =>
    intro j nf hnf hj hf
    rw [rouletteLoop, if_pos ⟨hj, hnf⟩]
    by_cases hge : cf.getD j 0 ≥ seed
    · rw [if_pos hge, rouletteLoop_stop]; omega
    · rw [if_neg hge]
      by_cases hj1 : j + 1 < P.POPSIZE
      · have := ih (j + 1) nf hnf hj1 (by omega)
        omega
      · have h1 : rouletteLoop P cf seed fuel (j + 1) nf = j + 1 := by
          cases fuel with
          | zero => rfl
          | succ f => rw [rouletteLoop, if_neg (by intro h; exact hj1 h.1)]
        rw [h1]; omega

theorem usub_one {a : Nat} (h1 : 1 ≤ a) (h2 : a ≤ UINT_MOD) : usub a 1 = a - 1 := by
  unfold usub
  have : a + UINT_MOD - 1 = (a - 1) + UINT_MOD := by omega
  rw [this, Nat.add_mod_right]
  apply Nat.mod_eq_of_lt; omega

theorem popsize_le_uint {P : Params} (h : P.valid) : P.POPSIZE ≤ UINT_MOD := by
  unfold Params.valid at h; unfold UINT_MOD; omega

/-- C4: with at least one individual, `rouletteWheel` returns the smallest
index whose cumulative fitness reaches the seed when there is one, and
`POPSIZE - 1` when no entry reaches the seed. -/
theorem rouletteWheel_smallest (P : Params) (cumfit : List Nat) (seed : Nat)
    (hP : P.valid) (hN : 1 ≤ P.POPSIZE) :
    (∀ t, t < P.POPSIZE → cumfit.getD t 0 ≥ seed →
        (∀ k, k < t → cumfit.getD k 0 < seed) → rouletteWheel P cumfit seed = t) ∧
    ((∀ k, k < P.POPSIZE → cumfit.getD k 0 < seed) →
        rouletteWheel P cumfit seed = P.POPSIZE - 1) := by
  have hU := popsize_le_uint hP
  constructor
  · intro t ht hge hlow
    unfold rouletteWheel
    rw [rouletteLoop_found P cumfit seed t ht hge P.POPSIZE 0 1 (by decide) (Nat.zero_le _)
      (by omega) (fun k _ hk => hlow k hk)]
    rw [usub_one (by omega) (by omega)]; rfl
  · intro hlow
    unfold rouletteWheel
    rw [rouletteLoop_none P cumfit seed P.POPSIZE 0 1 (by decide) (Nat.zero_le _)
      (by omega) (fun k _ hk => hlow k hk)]
    exact usub_one hN hU

/-- Witness for C4: in a population of three with cumulative fitness 2, 5, 9,
the seed 4 selects index 1. -/
theorem rouletteWheel_smallest_witness :
    rouletteWheel { builtin with POPSIZE := 3 } [2, 5, 9] 4 = 1 :=
  (rouletteWheel_smallest { builtin with POPSIZE := 3 } [2, 5, 9] 4 (by decide) (by decide)).1
    1 (by decide) (by decide) (by decide)

theorem rouletteWheel_lt (P : Params) (cumfit : List Nat) (seed : Nat)
    (hP : P.valid) (hN : 1 ≤ P.POPSIZE) : rouletteWheel P cumfit seed < P.POPSIZE := by
  have hU := popsize_le_uint hP
  have h := rouletteLoop_bounds P cumfit seed P.POPSIZE 0 1 (by decide) (by omega) (by omega)
  unfold rouletteWheel
  rw [usub_one (by omega) (by omega)]
  omega

/-! ## evaluate -/

theorem fitSum_succ (M : Machine) (P : Params) (pop : List (List Nat)) (i : Nat) :
    fitSum M P pop (i + 1) = fitSum M P pop i + fitness M P (pop.getD i []) := by
  unfold fitSum; rw [Finset.sum_range_succ]

theorem evalInv_init (M : Machine) (P : Params) (g : GA) :
    EvalInv M P g 0 { g with sumfit := 0, worstIdx := 0, bestIdx := 0 } where
  pop_eq := rfl
  nwpop_eq := rfl
  ngen_eq := rfl
  fit_len := rfl
  cum_len := rfl
  fit_eq := fun k hk => absurd hk (Nat.not_lt_zero k)
  sum_eq := by simp [fitSum]
  cum_eq := fun k hk => absurd hk (Nat.not_lt_zero k)
  best_le := Nat.zero_le _
  worst_le := Nat.zero_le _
  best_max := fun k hk => absurd hk (Nat.not_lt_zero k)
  best_first := fun k hk => absurd hk (Nat.not_lt_zero k)
  worst_min := fun k hk => absurd hk (Nat.not_lt_zero k)
  worst_first := fun k hk => absurd hk (Nat.not_lt_zero k)

theorem evalInv_step (M : Machine) (P : Params) (g G : GA) (i : Nat)
    (hi1 : i < g.fit.length) (hi2 : i < g.cumfit.length) (h : EvalInv M P g i G) :
    EvalInv M P g (i + 1) (evaluateStep M P i G) := by
  have hfi : (G.fit.set i (fitness M P (G.pop.getD i []))).getD i 0
      = fitness M P (g.pop.getD i []) := by
    rw [getD_set_eq_ite, if_pos ⟨rfl, by rw [h.fit_len]; exact hi1⟩, h.pop_eq]
  have hfk : ∀ k, k < i + 1 → (G.fit.set i (fitness M P (G.pop.getD i []))).getD k 0
      = fitness M P (g.pop.getD k []) := by
    intro k hk
    by_cases hki : k = i
    · subst hki; exact hfi
    · rw [getD_set_eq_ite, if_neg (by intro hh; exact hki hh.1.symm)]
      exact h.fit_eq k (by omega)
  have hsum : uadd G.sumfit (fitness M P (g.pop.getD i []))
      = fitSum M P g.pop (i + 1) % UINT_MOD := by
    unfold uadd
    rw [h.sum_eq, fitSum_succ, Nat.mod_add_mod]
  have hck : ∀ k, k < i + 1 →
      (G.cumfit.set i (uadd G.sumfit (fitness M P (g.pop.getD i [])))).getD k 0
        = fitSum M P g.pop (k + 1) % UINT_MOD := by
    intro k hk
    by_cases hki : k = i
    · subst hki
      rw [getD_set_eq_ite, if_pos ⟨rfl, by rw [h.cum_len]; exact hi2⟩, hsum]
    · rw [getD_set_eq_ite, if_neg (by intro hh; exact hki hh.1.symm)]
      exact h.cum_eq k (by omega)
  have hb := h.best_le
  have hw := h.worst_le
  have hbest : (G.fit.set i (fitness M P (G.pop.getD i []))).getD G.bestIdx 0
      = fitness M P (g.pop.getD G.bestIdx []) := hfk _ (by omega)
  have hworst : (G.fit.set i (fitness M P (G.pop.getD i []))).getD G.worstIdx 0
      = fitness M P (g.pop.getD G.worstIdx []) := hfk _ (by omega)
  have hmax_old : ∀ k, k < i + 1 → k ≠ i →
      fitness M P (g.pop.getD k []) ≤ fitness M P (g.pop.getD G.bestIdx []) :=
    fun k hk hne => h.best_max k (by omega)
  have hmin_old : ∀ k, k < i + 1 → k ≠ i →
      fitness M P (g.pop.getD G.worstIdx []) ≤ fitness M P (g.pop.getD k []) :=
    fun k hk hne => h.worst_min k (by omega)
  have hbw : fitness M P (g.pop.getD G.worstIdx []) ≤ fitness M P (g.pop.getD G.bestIdx []) := by
    by_cases h0 : i = 0
    · have e1 : G.bestIdx = 0 := by omega
      have e2 : G.worstIdx = 0 := by omega
      rw [e1, e2]
    · exact h.best_max _ (by omega)
  unfold evaluateStep
  simp only [hfi, hbest, hworst, gt_iff_lt]
  rw [h.pop_eq] at *
  by_cases hnew : fitness M P (g.pop.getD G.bestIdx []) < fitness M P (g.pop.getD i [])
  · rw [if_pos hnew]
    exact {
      pop_eq := rfl
      nwpop_eq := h.nwpop_eq
      ngen_eq := h.ngen_eq
      fit_len := by simp [h.fit_len]
      cum_len := by simp [h.cum_len]
      fit_eq := hfk
      sum_eq := hsum
      cum_eq := hck
      best_le := by simp
      worst_le := by show G.worstIdx ≤ i + 1 - 1; omega
      best_max := by
        intro k hk
        show fitness M P (g.pop.getD k []) ≤ fitness M P (g.pop.getD i [])
        by_cases hki : k = i
        · rw [hki]
        · have := hmax_old k hk hki; omega
      best_first := by
        intro k hk
        show fitness M P (g.pop.getD k []) < fitness M P (g.pop.getD i [])
        have hk2 : k < i := hk
        have := h.best_max k hk2; omega
      worst_min := by
        intro k hk
        show fitness M P (g.pop.getD G.worstIdx []) ≤ fitness M P (g.pop.getD k [])
        by_cases hki : k = i
        · rw [hki]; omega
        · exact hmin_old k hk hki
      worst_first := h.worst_first }
  · rw [if_neg hnew]
    by_cases hlow : fitness M P (g.pop.getD i []) < fitness M P (g.pop.getD G.worstIdx [])
    · rw [if_pos hlow]
      exact {
        pop_eq := rfl
        nwpop_eq := h.nwpop_eq
        ngen_eq := h.ngen_eq
        fit_len := by simp [h.fit_len]
        cum_len := by simp [h.cum_len]
        fit_eq := hfk
        sum_eq := hsum
        cum_eq := hck
        best_le := by show G.bestIdx ≤ i + 1 - 1; omega
        worst_le := by simp
        best_max := by
          intro k hk
          show fitness M P (g.pop.getD k []) ≤ fitness M P (g.pop.getD G.bestIdx [])
          by_cases hki : k = i
          · rw [hki]; omega
          · exact hmax_old k hk hki
        best_first := h.best_first
        worst_min := by
          intro k hk
          show fitness M P (g.pop.getD i []) ≤ fitness M P (g.pop.getD k [])
          by_cases hki : k = i
          · rw [hki]
          · have := hmin_old k hk hki; omega
        worst_first := by
          intro k hk
          show fitness M P (g.pop.getD i []) < fitness M P (g.pop.getD k [])
          have hk2 : k < i := hk
          have := h.worst_min k hk2; omega }
    · rw [if_neg hlow]
      exact {
        pop_eq := rfl
        nwpop_eq := h.nwpop_eq
        ngen_eq := h.ngen_eq
        fit_len := by simp [h.fit_len]
        cum_len := by simp [h.cum_len]
        fit_eq := hfk
        sum_eq := hsum
        cum_eq := hck
        best_le := by show G.bestIdx ≤ i + 1 - 1; omega
        worst_le := by show G.worstIdx ≤ i + 1 - 1; omega
        best_max := by
          intro k hk
          show fitness M P (g.pop.getD k []) ≤ fitness M P (g.pop.getD G.bestIdx [])
          by_cases hki : k = i
          · rw [hki]; omega
          · exact hmax_old k hk hki
        best_first := h.best_first
        worst_min := by
          intro k hk
          show fitness M P (g.pop.getD G.worstIdx []) ≤ fitness M P (g.pop.getD k [])
          by_cases hki : k = i
          · rw [hki]; omega
          · exact hmin_old k hk hki
        worst_first := h.worst_first }

theorem evalInv_loop (M : Machine) (P : Params) (g : GA) (n : Nat)
    (h1 : n ≤ g.fit.length) (h2 : n ≤ g.cumfit.length) :
    EvalInv M P g n
      (forLoop n (evaluateStep M P) { g with sumfit := 0, worstIdx := 0, bestIdx := 0 }) := by
  induction n with
  | zero => exact evalInv_init M P g
  | succ n ih =>
    rw [forLoop_succ]
    exact evalInv_step M P g _ n (by omega) (by omega) (ih (by omega) (by omega))

/-- The state after `evaluate` satisfies the loop invariant at `POPSIZE`. -/
theorem evalInv_evaluate (M : Machine) (P : Params) (g : GA) (h : allocated P g) :
    EvalInv M P g P.POPSIZE (evaluate M P g) :=
  evalInv_loop M P g P.POPSIZE (le_of_eq h.1.symm) (le_of_eq h.2.1.symm)

/-- C5: after `evaluate` on a population of at least one individual,
`rouletteWheel` returns an index in `[0, POPSIZE)` for every seed, in
particular for every seed in `[0, sumfit)`. -/
theorem rouletteWheel_after_evaluate_in_range (M : Machine) (P : Params) (g : GA)
    (seed : Nat) (hP : P.valid) (hN : 1 ≤ P.POPSIZE) :
    0 ≤ rouletteWheel P (evaluate M P g).cumfit seed ∧
      rouletteWheel P (evaluate M P g).cumfit seed < P.POPSIZE :=
  ⟨Nat.zero_le _, rouletteWheel_lt P _ seed hP hN⟩

/-- Witness for C5: the demo population has total fitness 25; the seed 7 is
below it and selects an index below 4. -/
theorem rouletteWheel_after_evaluate_in_range_witness :
    7 < (evaluate maskingMachine demoParams demoGA).sumfit ∧
    0 ≤ rouletteWheel demoParams (evaluate maskingMachine demoParams demoGA).cumfit 7 ∧
      rouletteWheel demoParams (evaluate maskingMachine demoParams demoGA).cumfit 7
        < demoParams.POPSIZE :=
  ⟨by decide, rouletteWheel_after_evaluate_in_range maskingMachine demoParams demoGA 7
    (by decide) (by decide)⟩

theorem pop_getD_valid {P : Params} {g : GA} (ha : allocated P g) {k : Nat}
    (hk : k < P.POPSIZE) : validChrom P (g.pop.getD k []) := by
  have hlen : k < g.pop.length := by rw [ha.2.2.1]; exact hk
  rw [List.getD_eq_getElem _ _ hlen]
  exact ha.2.2.2.2.1 _ (List.getElem_mem hlen)

theorem fitSum_le (M : Machine) (P : Params) (g : GA) (hP : P.valid)
    (ha : allocated P g) : ∀ i, i ≤ P.POPSIZE → fitSum M P g.pop i ≤ i * P.LEN := by
  intro i
  induction i with
  | zero => intro _; simp [fitSum]
  | succ i ih =>
    intro hi
    rw [fitSum_succ]
    have h1 := ih (by omega)
    have h2 := (fitness_eq M P _ hP (pop_getD_valid ha (show i < P.POPSIZE by omega))).2
    have h3 : (i + 1) * P.LEN = i * P.LEN + P.LEN := by ring
    omega

theorem fitSum_mono (M : Machine) (P : Params) (pop : List (List Nat)) {i j : Nat}
    (h : i ≤ j) : fitSum M P pop i ≤ fitSum M P pop j := by
  unfold fitSum
  apply Finset.sum_le_sum_of_subset
  intro x hx
  simp only [Finset.mem_range] at *
  omega

theorem fitSum_lt_uint (M : Machine) (P : Params) (g : GA) (hP : P.valid)
    (ha : allocated P g) (hnw : P.POPSIZE * P.LEN < UINT_MOD) {i : Nat}
    (hi : i ≤ P.POPSIZE) : fitSum M P g.pop i % UINT_MOD = fitSum M P g.pop i := by
  apply Nat.mod_eq_of_lt
  have h1 := fitSum_le M P g hP ha i hi
  have h2 : i * P.LEN ≤ P.POPSIZE * P.LEN := Nat.mul_le_mul_right _ hi
  omega

/-- C6: after `evaluate`, when `POPSIZE * LEN < 2 ^ 32`: the population is
untouched, `fit[i]` is the fitness of individual `i`, `cumfit[i]` is the sum
of `fit[0..i]`, `cumfit` is non-decreasing, its last element is `sumfit`, and
`sumfit` is the sum of all the fitness values. -/
theorem evaluate_sums (M : Machine) (P : Params) (g : GA)
    (hP : P.valid) (ha : allocated P g) (hnw : P.POPSIZE * P.LEN < UINT_MOD) :
    (evaluate M P g).pop = g.pop ∧
    (∀ i, i < P.POPSIZE →
      (evaluate M P g).fit.getD i 0 = fitness M P ((evaluate M P g).pop.getD i [])) ∧
    (∀ i, i < P.POPSIZE →
      (evaluate M P g).cumfit.getD i 0
        = ∑ k in Finset.range (i + 1), (evaluate M P g).fit.getD k 0) ∧
    (∀ i j, i ≤ j → j < P.POPSIZE →
      (evaluate M P g).cumfit.getD i 0 ≤ (evaluate M P g).cumfit.getD j 0) ∧
    (1 ≤ P.POPSIZE →
      (evaluate M P g).cumfit.getD (P.POPSIZE - 1) 0 = (evaluate M P g).sumfit) ∧
    (evaluate M P g).sumfit = ∑ k in Finset.range P.POPSIZE, (evaluate M P g).fit.getD k 0 ∧
    (evaluate M P g).sumfit
      = ∑ k in Finset.range P.POPSIZE, fitness M P ((evaluate M P g).pop.getD k []) := by
  have inv := evalInv_evaluate M P g ha
  have hsumfit : ∀ n, n ≤ P.POPSIZE →
      ∑ k in Finset.range n, (evaluate M P g).fit.getD k 0 = fitSum M P g.pop n := by
    intro n hn
    unfold fitSum
    apply Finset.sum_congr rfl
    intro k hk
    rw [Finset.mem_range] at hk
    exact inv.fit_eq k (by omega)
  have hcum : ∀ i, i < P.POPSIZE →
      (evaluate M P g).cumfit.getD i 0 = fitSum M P g.pop (i + 1) := by
    intro i hi
    rw [inv.cum_eq i hi, fitSum_lt_uint M P g hP ha hnw (by omega)]
  have hs : (evaluate M P g).sumfit = fitSum M P g.pop P.POPSIZE := by
    rw [inv.sum_eq, fitSum_lt_uint M P g hP ha hnw (le_refl _)]
  refine ⟨inv.pop_eq, ?_, ?_, ?_, ?_, ?_, ?_⟩
  · intro i hi; rw [inv.pop_eq]; exact inv.fit_eq i hi
  · intro i hi; rw [hcum i hi, hsumfit (i + 1) (by omega)]
  · intro i j hij hj
    rw [hcum i (by omega), hcum j hj]
    exact fitSum_mono M P g.pop (by omega)
  · intro hN
    rw [hcum _ (by omega), hs]
    congr 1; omega
  · rw [hs, hsumfit _ (le_refl _)]
  · rw [hs, inv.pop_eq]; rfl

/-- C7: after `evaluate` on at least one individual, `bestIdx` is the
smallest index of an individual of maximal fitness. -/
theorem evaluate_bestIdx (M : Machine) (P : Params) (g : GA)
    (ha : allocated P g) (hN : 1 ≤ P.POPSIZE) :
    (evaluate M P g).bestIdx < P.POPSIZE ∧
    (∀ i, i < P.POPSIZE →
      (evaluate M P g).fit.getD i 0
        ≤ (evaluate M P g).fit.getD (evaluate M P g).bestIdx 0) ∧
    (∀ i, i < (evaluate M P g).bestIdx →
      (evaluate M P g).fit.getD i 0
        < (evaluate M P g).fit.getD (evaluate M P g).bestIdx 0) := by
  have inv := evalInv_evaluate M P g ha
  have hb := inv.best_le
  have hlt : (evaluate M P g).bestIdx < P.POPSIZE := by omega
  refine ⟨hlt, ?_, ?_⟩
  · intro i hi
    rw [inv.fit_eq i hi, inv.fit_eq _ hlt]
    exact inv.best_max i hi
  · intro i hi
    rw [inv.fit_eq i (by omega), inv.fit_eq _ hlt]
    exact inv.best_first i hi

/-- C8: after `evaluate` on at least one individual, `worstIdx` indexes an
individual of minimal fitness. -/
theorem evaluate_worstIdx (M : Machine) (P : Params) (g : GA)
    (ha : allocated P g) (hN : 1 ≤ P.POPSIZE) :
    (evaluate M P g).worstIdx < P.POPSIZE ∧
    (∀ i, i < P.POPSIZE →
      (evaluate M P g).fit.getD (evaluate M P g).worstIdx 0
        ≤ (evaluate M P g).fit.getD i 0) := by
  have inv := evalInv_evaluate M P g ha
  have hb := inv.worst_le
  have hlt : (evaluate M P g).worstIdx < P.POPSIZE := by omega
  refine ⟨hlt, ?_⟩
  intro i hi
  rw [inv.fit_eq i hi, inv.fit_eq _ hlt]
  exact inv.worst_min i hi

/-- Witness for C6: the demo population. -/
theorem evaluate_sums_witness :
    (evaluate maskingMachine demoParams demoGA).pop = demoGA.pop ∧
    (∀ i, i < demoParams.POPSIZE →
      (evaluate maskingMachine demoParams demoGA).fit.getD i 0
        = fitness maskingMachine demoParams
            ((evaluate maskingMachine demoParams demoGA).pop.getD i [])) ∧
    (∀ i, i < demoParams.POPSIZE →
      (evaluate maskingMachine demoParams demoGA).cumfit.getD i 0
        = ∑ k in Finset.range (i + 1), (evaluate maskingMachine demoParams demoGA).fit.getD k 0) ∧
    (∀ i j, i ≤ j → j < demoParams.POPSIZE →
      (evaluate maskingMachine demoParams demoGA).cumfit.getD i 0
        ≤ (evaluate maskingMachine demoParams demoGA).cumfit.getD j 0) ∧
    (1 ≤ demoParams.POPSIZE →
      (evaluate maskingMachine demoParams demoGA).cumfit.getD (demoParams.POPSIZE - 1) 0
        = (evaluate maskingMachine demoParams demoGA).sumfit) ∧
    (evaluate maskingMachine demoParams demoGA).sumfit
      = ∑ k in Finset.range demoParams.POPSIZE,
          (evaluate maskingMachine demoParams demoGA).fit.getD k 0 ∧
    (evaluate maskingMachine demoParams demoGA).sumfit
      = ∑ k in Finset.range demoParams.POPSIZE,
          fitness maskingMachine demoParams
            ((evaluate maskingMachine demoParams demoGA).pop.getD k []) :=
  evaluate_sums maskingMachine demoParams demoGA (by decide) (by decide) (by decide)

/-- Witness for C7: the demo population. -/
theorem evaluate_bestIdx_witness :
    (evaluate maskingMachine demoParams demoGA).bestIdx < demoParams.POPSIZE ∧
    (∀ i, i < demoParams.POPSIZE →
      (evaluate maskingMachine demoParams demoGA).fit.getD i 0
        ≤ (evaluate maskingMachine demoParams demoGA).fit.getD
            (evaluate maskingMachine demoParams demoGA).bestIdx 0) ∧
    (∀ i, i < (evaluate maskingMachine demoParams demoGA).bestIdx →
      (evaluate maskingMachine demoParams demoGA).fit.getD i 0
        < (evaluate maskingMachine demoParams demoGA).fit.getD
            (evaluate maskingMachine demoParams demoGA).bestIdx 0) :=
  evaluate_bestIdx maskingMachine demoParams demoGA (by decide) (by decide)

/-- Witness for C8: the demo population. -/
theorem evaluate_worstIdx_witness :
    (evaluate maskingMachine demoParams demoGA).worstIdx < demoParams.POPSIZE ∧
    (∀ i, i < demoParams.POPSIZE →
      (evaluate maskingMachine demoParams demoGA).fit.getD
          (evaluate maskingMachine demoParams demoGA).worstIdx 0
        ≤ (evaluate maskingMachine demoParams demoGA).fit.getD i 0) :=
  evaluate_worstIdx maskingMachine demoParams demoGA (by decide) (by decide)

/-! ## selectAndReproduct -/

theorem selectStep_frame (M : Machine) (P : Params) (i : Nat) (st : St) :
    (selectStep M P i st).ga.pop = st.ga.pop ∧
    (selectStep M P i st).ga.fit = st.ga.fit ∧
    (selectStep M P i st).ga.cumfit = st.ga.cumfit ∧
    (selectStep M P i st).ga.sumfit = st.ga.sumfit ∧
    (selectStep M P i st).ga.bestIdx = st.ga.bestIdx ∧
    (selectStep M P i st).ga.worstIdx = st.ga.worstIdx ∧
    (selectStep M P i st).ga.ngen = st.ga.ngen := by
  unfold selectStep
  simp only []
  split <;> simp

theorem selectOdd_frame (M : Machine) (P : Params) (st : St) :
    (selectOdd M P st).ga.pop = st.ga.pop ∧
    (selectOdd M P st).ga.fit = st.ga.fit ∧
    (selectOdd M P st).ga.cumfit = st.ga.cumfit ∧
    (selectOdd M P st).ga.sumfit = st.ga.sumfit ∧
    (selectOdd M P st).ga.bestIdx = st.ga.bestIdx ∧
    (selectOdd M P st).ga.worstIdx = st.ga.worstIdx ∧
    (selectOdd M P st).ga.ngen = st.ga.ngen := by
  unfold selectOdd
  split <;> simp

theorem insertStep_frame (M : Machine) (P : Params) (i : Nat) (st : St) :
    (insertStep M P i st).ga.fit = st.ga.fit ∧
    (insertStep M P i st).ga.cumfit = st.ga.cumfit ∧
    (insertStep M P i st).ga.sumfit = st.ga.sumfit ∧
    (insertStep M P i st).ga.bestIdx = st.ga.bestIdx ∧
    (insertStep M P i st).ga.worstIdx = st.ga.worstIdx ∧
    (insertStep M P i st).ga.ngen = st.ga.ngen := by
  unfold insertStep
  simp

theorem steady_call_unfold (M : Machine) (P : Params) (st : St)
    (hG : P.GENERATIONAL = 0) :
    selectAndReproduct M P st = insertStep M P 0 (selectStep M P 0 st) := by
  unfold selectAndReproduct
  simp [hG, forLoop, selectOdd]

/-- C9: in steady-state mode one call of `selectAndReproduct` writes no
population slot other than the one at `worstIdx` (every other individual is
the same list of blocks before and after, and the population keeps its
size), and leaves `fit`, `cumfit`, `sumfit`, `bestIdx` and `worstIdx` as they
were. -/
theorem selectAndReproduct_steady_frame (M : Machine) (P : Params) (st : St)
    (hG : P.GENERATIONAL = 0) (_hw : st.ga.worstIdx < P.POPSIZE) :
    (∀ i, i < P.POPSIZE → i ≠ st.ga.worstIdx →
      (selectAndReproduct M P st).ga.pop.getD i [] = st.ga.pop.getD i []) ∧
    (selectAndReproduct M P st).ga.pop.length = st.ga.pop.length ∧
    (selectAndReproduct M P st).ga.fit = st.ga.fit ∧
    (selectAndReproduct M P st).ga.cumfit = st.ga.cumfit ∧
    (selectAndReproduct M P st).ga.sumfit = st.ga.sumfit ∧
    (selectAndReproduct M P st).ga.bestIdx = st.ga.bestIdx ∧
    (selectAndReproduct M P st).ga.worstIdx = st.ga.worstIdx := by
  rw [steady_call_unfold M P st hG]
  obtain ⟨s1, s2, s3, s4, s5, s6, _⟩ := selectStep_frame M P 0 st
  obtain ⟨i1, i2, i3, i4, i5, _⟩ := insertStep_frame M P 0 (selectStep M P 0 st)
  refine ⟨?_, ?_, i1.trans s2, i2.trans s3, i3.trans s4, i4.trans s5, i5.trans s6⟩
  · intro i _ hne
    unfold insertStep
    simp only [hG, ne_eq, not_true_eq_false, if_false]
    rw [getD_set_eq_ite, if_neg (by intro h; exact hne (s6 ▸ h.1).symm), s1]
  · unfold insertStep
    simp only [List.length_set]
    rw [s1]

/-! ## Reproduction without crossover and without mutation -/

theorem flip_zero (M : Machine) (s : Rng) : flip M 0 s = (0, s) := by
  simp [flip]

theorem mutateBlock_zero (M : Machine) (P : Params) (hm : P.PMUT = 0) (x lb : Nat)
    (s : Rng) : mutateBlock M P x lb s = (x, s) := by
  unfold mutateBlock
  generalize BLOCK_BIT - lb = n
  induction n with
  | zero => rfl
  | succ n ih => rw [forLoop_succ, ih]; simp [hm, flip_zero]

theorem set_getD_self {α : Type} (l : List α) (i : Nat) (d : α) :
    l.set i (l.getD i d) = l := by
  apply List.ext_getElem?
  intro k
  rw [List.getElem?_set]
  by_cases h : i = k
  · subst h
    by_cases h2 : i < l.length
    · simp [h2, List.getD_eq_getElem _ _ h2]
    · simp [h2, List.getElem?_eq_none (Nat.le_of_not_lt h2)]
  · simp [h]

theorem forLoop_pair_id {α β : Type} (n : Nat) (x : α × β) :
    forLoop n (fun _ (cs : α × β) => (cs.1, cs.2)) x = x := by
  induction n with
  | zero => rfl
  | succ n ih => rw [forLoop_succ, ih]

theorem mutate_zero (M : Machine) (P : Params) (hm : P.PMUT = 0) (c : List Nat)
    (s : Rng) : mutate M P c s = (c, s) := by
  unfold mutate
  simp only [mutateBlock_zero M P hm, set_getD_self, forLoop_pair_id]

/-- Function `clone` makes the destination equal to the source, block for block. -/
theorem clone_eq (P : Params) (src dst : List Nat) (hs : src.length = NBR_OF_BLOCK P)
    (hd : dst.length = NBR_OF_BLOCK P) : clone P src dst = src := by
  unfold clone
  apply List.ext_getElem
  · rw [forLoop_set_length, hd, hs]
  · intro k h1 h2
    have h := forLoop_set_getD (fun i => src.getD i 0) (NBR_OF_BLOCK P) dst k 0
    rw [List.getD_eq_getElem _ _ h1] at h
    rw [h, if_pos ⟨by rw [← hs]; exact h2, by rw [hd, ← hs]; exact h2⟩,
      List.getD_eq_getElem _ _ h2]

/-- Writing a clone of a population member into a slot of the offspring
array. -/
theorem set_clone (P : Params) (pop nw : List (List Nat)) (t0 j : Nat)
    (hlen : ∀ t, t < nw.length → (nw.getD t []).length = NBR_OF_BLOCK P)
    (ht0 : t0 < nw.length) (hj : (pop.getD j []).length = NBR_OF_BLOCK P) :
    (∀ t, t < nw.length →
      ((nw.set t0 (clone P (pop.getD j []) (nw.getD t0 []))).getD t []).length
        = NBR_OF_BLOCK P) ∧
    (nw.set t0 (clone P (pop.getD j []) (nw.getD t0 []))).getD t0 [] = pop.getD j [] ∧
    (∀ t, t ≠ t0 →
      (nw.set t0 (clone P (pop.getD j []) (nw.getD t0 []))).getD t [] = nw.getD t []) := by
  rw [clone_eq P _ _ hj (hlen t0 ht0)]
  refine ⟨?_, ?_, ?_⟩
  · intro t ht
    rw [getD_set_eq_ite]
    split
    · exact hj
    · exact hlen t ht
  · rw [getD_set_eq_ite, if_pos ⟨rfl, ht0⟩]
  · intro t ht
    rw [getD_set_eq_ite, if_neg (by intro h; exact ht h.1.symm)]

theorem copiesOf_set (P : Params) (pop a : List (List Nat)) (n j : Nat)
    (h : CopiesOf P pop n a) (hn : n < P.POPSIZE) (hj : j < P.POPSIZE)
    (hjl : (pop.getD j []).length = NBR_OF_BLOCK P) :
    CopiesOf P pop (n + 1) (a.set n (clone P (pop.getD j []) (a.getD n []))) := by
  obtain ⟨h1, h2, h3⟩ := h
  obtain ⟨s1, s2, s3⟩ := set_clone P pop a n j h2 (by rw [h1]; exact hn) hjl
  refine ⟨by rw [List.length_set]; exact h1, ?_, ?_⟩
  · intro t ht
    rw [List.length_set] at ht
    exact s1 t ht
  · intro t ht
    by_cases htt : t = n
    · subst htt; exact ⟨j, hj, s2⟩
    · rw [s3 t htt]; exact h3 t (by omega)

/-- With crossover probability 0 in generational mode, one turn of the
selection loop clones two selected individuals into the slots `2i`, `2i+1`. -/
theorem selectStep_clone (M : Machine) (P : Params) (i : Nat) (st : St)
    (hP : P.valid) (hN : 1 ≤ P.POPSIZE) (hc : P.CROSSOVER_PROB = 0)
    (hG : P.GENERATIONAL ≠ 0) :
    ∃ j k, j < P.POPSIZE ∧ k < P.POPSIZE ∧
      (selectStep M P i st).ga.nwpop
        = (st.ga.nwpop.set (i * 2)
              (clone P (st.ga.pop.getD j []) (st.ga.nwpop.getD (i * 2) []))).set (i * 2 + 1)
            (clone P (st.ga.pop.getD k [])
              ((st.ga.nwpop.set (i * 2)
                (clone P (st.ga.pop.getD j []) (st.ga.nwpop.getD (i * 2) []))).getD
                  (i * 2 + 1) [])) := by
  refine ⟨_, _, rouletteWheel_lt P st.ga.cumfit (randInt M st.ga.sumfit st.rng).1 hP hN,
    rouletteWheel_lt P st.ga.cumfit
      (randInt M st.ga.sumfit (randInt M st.ga.sumfit st.rng).2).1 hP hN, ?_⟩
  unfold selectStep
  simp [hc, flip_zero, hG]

theorem pop_len_of_allocated {P : Params} {g : GA} (ha : allocated P g) {k : Nat}
    (hk : k < P.POPSIZE) : (g.pop.getD k []).length = NBR_OF_BLOCK P :=
  (pop_getD_valid ha hk).1

theorem select_loop_copies (M : Machine) (P : Params) (st : St)
    (hP : P.valid) (hN : 1 ≤ P.POPSIZE) (hc : P.CROSSOVER_PROB = 0)
    (hG : P.GENERATIONAL ≠ 0) (ha : allocated P st.ga) :
    ∀ n, n ≤ P.POPSIZE / 2 →
      (forLoop n (selectStep M P) st).ga.pop = st.ga.pop ∧
      CopiesOf P st.ga.pop (2 * n) (forLoop n (selectStep M P) st).ga.nwpop := by
  intro n
  induction n with
  | zero =>
    intro _
    refine ⟨rfl, ?_, ?_, ?_⟩
    · have := ha.2.2.2.1; rw [if_pos hG] at this; exact this
    · intro t ht
      have hm := ha.2.2.2.2.2 _ (List.getElem_mem ht)
      rw [List.getD_eq_getElem _ _ ht]; exact hm.1
    · intro t ht; omega
  | succ n ih =>
    intro hn
    obtain ⟨ih1, ih2⟩ := ih (by omega)
    rw [forLoop_succ]
    obtain ⟨j, k, hj, hk, heq⟩ := selectStep_clone M P n (forLoop n (selectStep M P) st) hP hN hc hG
    refine ⟨(selectStep_frame M P n _).1.trans ih1, ?_⟩
    rw [heq, ih1]
    have e1 : n * 2 = 2 * n := by ring
    have e2 : 2 * (n + 1) = 2 * n + 1 + 1 := by ring
    rw [e1, e2]
    have c1 := copiesOf_set P st.ga.pop _ (2 * n) j ih2 (by omega) hj
      (pop_len_of_allocated ha hj)
    exact copiesOf_set P st.ga.pop _ (2 * n + 1) k c1 (by omega) hk
      (pop_len_of_allocated ha hk)

theorem selectOdd_copies (M : Machine) (P : Params) (st0 st : St)
    (hP : P.valid) (hN : 1 ≤ P.POPSIZE) (hG : P.GENERATIONAL ≠ 0)
    (ha : allocated P st0.ga) (hpop : st.ga.pop = st0.ga.pop)
    (h : CopiesOf P st0.ga.pop (2 * (P.POPSIZE / 2)) st.ga.nwpop) :
    (selectOdd M P st).ga.pop = st0.ga.pop ∧
      CopiesOf P st0.ga.pop P.POPSIZE (selectOdd M P st).ga.nwpop := by
  refine ⟨(selectOdd_frame M P st).1.trans hpop, ?_⟩
  unfold selectOdd
  by_cases hodd : P.POPSIZE % 2 ≠ 0
  · rw [if_pos ⟨hG, hodd⟩]
    simp only [hpop]
    have hj := rouletteWheel_lt P st.ga.cumfit (randInt M st.ga.sumfit st.rng).1 hP hN
    have e : P.POPSIZE - 1 = 2 * (P.POPSIZE / 2) := by omega
    have e2 : 2 * (P.POPSIZE / 2) + 1 = P.POPSIZE := by omega
    rw [e]
    have c := copiesOf_set P st0.ga.pop _ (2 * (P.POPSIZE / 2)) _ h
      (by omega) hj (pop_len_of_allocated ha hj)
    rw [e2] at c
    exact c
  · rw [if_neg (by intro hh; exact hodd hh.2)]
    have e : 2 * (P.POPSIZE / 2) = P.POPSIZE := by omega
    rw [e] at h
    exact h

theorem insertStep_plain (M : Machine) (P : Params) (i : Nat) (st : St)
    (hG : P.GENERATIONAL ≠ 0) (hm : P.PMUT = 0) :
    (insertStep M P i st).ga.nwpop = st.ga.nwpop ∧
    (insertStep M P i st).ga.pop
      = st.ga.pop.set i (clone P (st.ga.nwpop.getD i []) (st.ga.pop.getD i [])) := by
  unfold insertStep
  simp only [mutate_zero M P hm, set_getD_self, hG, ne_eq, not_false_eq_true, if_true,
    and_self]

theorem insert_loop_copies (M : Machine) (P : Params) (st : St)
    (hG : P.GENERATIONAL ≠ 0) (hm : P.PMUT = 0)
    (hnw : ∀ t, t < P.POPSIZE → (st.ga.nwpop.getD t []).length = NBR_OF_BLOCK P)
    (hpl : st.ga.pop.length = P.POPSIZE)
    (hpw : ∀ t, t < P.POPSIZE → (st.ga.pop.getD t []).length = NBR_OF_BLOCK P) :
    ∀ n, n ≤ P.POPSIZE →
      (forLoop n (insertStep M P) st).ga.nwpop = st.ga.nwpop ∧
      (forLoop n (insertStep M P) st).ga.pop.length = P.POPSIZE ∧
      (∀ t, t < P.POPSIZE →
        ((forLoop n (insertStep M P) st).ga.pop.getD t []).length = NBR_OF_BLOCK P) ∧
      (∀ t, t < n →
        (forLoop n (insertStep M P) st).ga.pop.getD t [] = st.ga.nwpop.getD t []) := by
  intro n
  induction n with
  | zero => intro _; exact ⟨rfl, hpl, hpw, fun t ht => absurd ht (Nat.not_lt_zero t)⟩
  | succ n ih =>
    intro hn
    obtain ⟨i1, i2, i3, i4⟩ := ih (by omega)
    obtain ⟨p1, p2⟩ := insertStep_plain M P n (forLoop n (insertStep M P) st) hG hm
    rw [forLoop_succ]
    rw [i1] at p2
    rw [clone_eq P _ _ (hnw n (by omega)) (i3 n (by omega))] at p2
    refine ⟨p1.trans i1, ?_, ?_, ?_⟩
    · rw [p2, List.length_set]; exact i2
    · intro t ht
      rw [p2, getD_set_eq_ite]
      split
      · exact hnw n (by omega)
      · exact i3 t ht
    · intro t ht
      rw [p2, getD_set_eq_ite]
      by_cases htn : t = n
      · subst htn; rw [if_pos ⟨rfl, by rw [i2]; omega⟩]
      · rw [if_neg (by intro h; exact htn h.1.symm)]
        exact i4 t (by omega)

/-- C10: in generational mode with crossover probability 0 and mutation
probability 0, for every population size `POPSIZE >= 1` and every random
stream, each individual of the population after `selectAndReproduct` is, block
for block, an individual of the population before it, and so has the fitness
of that individual. -/
theorem selectAndReproduct_clones_only (M : Machine) (P : Params) (st : St)
    (hP : P.valid) (hN : 1 ≤ P.POPSIZE) (hG : P.GENERATIONAL ≠ 0)
    (hc : P.CROSSOVER_PROB = 0) (hm : P.PMUT = 0) (ha : allocated P st.ga) :
    (selectAndReproduct M P st).ga.pop.length = P.POPSIZE ∧
    ∀ i, i < P.POPSIZE → ∃ j, j < P.POPSIZE ∧
      (selectAndReproduct M P st).ga.pop.getD i [] = st.ga.pop.getD j [] ∧
      fitness M P ((selectAndReproduct M P st).ga.pop.getD i [])
        = fitness M P (st.ga.pop.getD j []) := by
  obtain ⟨a1, a2⟩ := select_loop_copies M P st hP hN hc hG ha (P.POPSIZE / 2) (le_refl _)
  obtain ⟨b1, b2⟩ := selectOdd_copies M P st _ hP hN hG ha a1 a2
  obtain ⟨c1, c2, c3⟩ := b2
  have hpl : (selectOdd M P (forLoop (P.POPSIZE / 2) (selectStep M P) st)).ga.pop.length
      = P.POPSIZE := by rw [b1]; exact ha.2.2.1
  have hpw : ∀ t, t < P.POPSIZE →
      ((selectOdd M P (forLoop (P.POPSIZE / 2) (selectStep M P) st)).ga.pop.getD t []).length
        = NBR_OF_BLOCK P := by
    intro t ht; rw [b1]; exact pop_len_of_allocated ha ht
  obtain ⟨d1, d2, d3, d4⟩ := insert_loop_copies M P _ hG hm
    (fun t ht => c2 t (by rw [c1]; exact ht)) hpl hpw P.POPSIZE (le_refl _)
  have hrun : selectAndReproduct M P st
      = forLoop P.POPSIZE (insertStep M P)
          (selectOdd M P (forLoop (P.POPSIZE / 2) (selectStep M P) st)) := by
    unfold selectAndReproduct
    simp only [hG, ne_eq, not_false_eq_true, if_true]
  rw [hrun]
  refine ⟨d2, ?_⟩
  intro i hi
  obtain ⟨j, hj, hij⟩ := c3 i hi
  refine ⟨j, hj, ?_, ?_⟩
  · rw [d4 i hi, hij]
  · rw [d4 i hi, hij]

/-- Witness for C10: the demo population, without crossover and mutation. -/
theorem selectAndReproduct_clones_only_witness :
    (selectAndReproduct maskingMachine demoCloneParams demoState).ga.pop.length
      = demoCloneParams.POPSIZE ∧
    ∀ i, i < demoCloneParams.POPSIZE → ∃ j, j < demoCloneParams.POPSIZE ∧
      (selectAndReproduct maskingMachine demoCloneParams demoState).ga.pop.getD i []
        = demoState.ga.pop.getD j [] ∧
      fitness maskingMachine demoCloneParams
          ((selectAndReproduct maskingMachine demoCloneParams demoState).ga.pop.getD i [])
        = fitness maskingMachine demoCloneParams (demoState.ga.pop.getD j []) :=
  selectAndReproduct_clones_only maskingMachine demoCloneParams demoState
    (by decide) (by decide) (by decide) (by decide) (by decide) (by decide)

/-- Witness for C9: the demo population in steady-state mode, where
`worstIdx` is 2 after `evaluate`. -/
theorem selectAndReproduct_steady_frame_witness :
    (∀ i, i < demoSteadyParams.POPSIZE → i ≠ demoSteadyState.ga.worstIdx →
      (selectAndReproduct maskingMachine demoSteadyParams demoSteadyState).ga.pop.getD i []
        = demoSteadyState.ga.pop.getD i []) ∧
    (selectAndReproduct maskingMachine demoSteadyParams demoSteadyState).ga.pop.length
      = demoSteadyState.ga.pop.length ∧
    (selectAndReproduct maskingMachine demoSteadyParams demoSteadyState).ga.fit
      = demoSteadyState.ga.fit ∧
    (selectAndReproduct maskingMachine demoSteadyParams demoSteadyState).ga.cumfit
      = demoSteadyState.ga.cumfit ∧
    (selectAndReproduct maskingMachine demoSteadyParams demoSteadyState).ga.sumfit
      = demoSteadyState.ga.sumfit ∧
    (selectAndReproduct maskingMachine demoSteadyParams demoSteadyState).ga.bestIdx
      = demoSteadyState.ga.bestIdx ∧
    (selectAndReproduct maskingMachine demoSteadyParams demoSteadyState).ga.worstIdx
      = demoSteadyState.ga.worstIdx :=
  selectAndReproduct_steady_frame maskingMachine demoSteadyParams demoSteadyState
    (by decide) (by decide)

/-! ## flip -/

/-- C16: `flip (100)` is true and `flip (0)` is false, neither consuming a
draw; for `0 < p < 100` one draw `r = randInt (100)` is consumed and the
result is true exactly when `r <= p`; so of the hundred possible values
`0 .. 99` of the draw, `p + 1` give true. -/
theorem flip_contract (M : Machine) (s : Rng) :
    flip M 100 s = (1, s) ∧ flip M 0 s = (0, s) ∧
    ∀ p, 0 < p → p < 100 →
      ((flip M p s).1 = 1 ↔ (randInt M 100 s).1 ≤ p) ∧
      ((flip M p s).1 = 0 ↔ ¬ (randInt M 100 s).1 ≤ p) ∧
      (flip M p s).2 = (randInt M 100 s).2 ∧
      ((Finset.range 100).filter (fun r =>
        (flip { M with scale := fun raw _ => raw } p (fun _ => r)).1 = 1)).card = p + 1 := by
  refine ⟨by simp [flip], by simp [flip], ?_⟩
  intro p hp0 hp1
  have hne : p ≠ 100 := by omega
  have hnz : p ≠ 0 := by omega
  refine ⟨?_, ?_, ?_, ?_⟩
  · unfold flip
    rw [if_neg hne, if_pos hnz]
    by_cases h : (randInt M 100 s).1 ≤ p <;> simp [h]
  · unfold flip
    rw [if_neg hne, if_pos hnz]
    by_cases h : (randInt M 100 s).1 ≤ p <;> simp [h]
  · unfold flip
    rw [if_neg hne, if_pos hnz]
  · have hset : (Finset.range 100).filter (fun r =>
        (flip { M with scale := fun raw _ => raw } p (fun _ => r)).1 = 1)
        = Finset.range (p + 1) := by
      ext r
      simp only [Finset.mem_filter, Finset.mem_range]
      unfold flip
      rw [if_neg hne, if_pos hnz]
      simp only [randInt, UINT_MOD]
      constructor
      · rintro ⟨h1, h2⟩
        have hr : r % 2 ^ 32 = r := Nat.mod_eq_of_lt (by omega)
        by_cases h : r % 2 ^ 32 ≤ p
        · omega
        · rw [if_neg h] at h2; omega
      · intro h
        have hr : r % 2 ^ 32 = r := Nat.mod_eq_of_lt (by omega)
        exact ⟨by omega, by rw [if_pos (by omega)]⟩
    rw [hset, Finset.card_range]

/-! ## readbit and flipbit -/

theorem usub_uadd_one {p : Nat} (hp : p < BLOCK_BIT) : usub (uadd p 1) 1 = p := by
  unfold usub uadd UINT_MOD; unfold BLOCK_BIT at hp; omega

/-- The value of `readbit` at a position inside the block: the bit, as 0 or 1. -/
theorem readbit_eq (M : Machine) (x : Nat) {p : Nat} (hp : p < BLOCK_BIT) :
    readbit M x p = (x.testBit p).toNat := by
  unfold readbit readbits
  rw [usub_uadd_one hp, readbits_mask (show 1 < BLOCK_BIT by decide)]
  unfold shr
  rw [if_pos hp, Nat.toNat_testBit, Nat.shiftRight_eq_div_pow]
  exact Nat.and_one_is_mod _

theorem shl_one {M : Machine} {p : Nat} (hp : p < BLOCK_BIT) : shl M 1 p = 2 ^ p := by
  unfold shl
  rw [if_pos hp, Nat.one_shiftLeft]
  apply Nat.mod_eq_of_lt
  exact Nat.pow_lt_pow_right (by decide) hp

/-- Inside the block `flipbit` is the exclusive or with the bit. -/
theorem flipbit_eq (M : Machine) {x p : Nat} (hx : x < BLOCK_MOD) (hp : p < BLOCK_BIT) :
    flipbit M x p = x ^^^ 2 ^ p := by
  unfold flipbit maskbit
  rw [shl_one hp]
  apply Nat.eq_of_testBit_eq
  intro i
  simp only [Nat.testBit_or, Nat.testBit_and, Nat.testBit_xor, testBit_bnot,
    Nat.testBit_two_pow]
  by_cases hi : i < BLOCK_BIT
  · by_cases hpi : p = i
    · subst hpi; simp [hi]
    · simp [hi, hpi]
  · have hpi : p ≠ i := by omega
    rw [testBit_block_high hx (Nat.le_of_not_lt hi)]
    simp [hi, hpi]

/-- The result of `flipbit` is a block, whatever the position and the machine. -/
theorem flipbit_lt (M : Machine) {x : Nat} (p : Nat) (hx : x < BLOCK_MOD) :
    flipbit M x p < BLOCK_MOD := by
  unfold flipbit
  apply Nat.or_lt_two_pow
  · exact lt_of_le_of_lt Nat.and_le_left hx
  · exact lt_of_le_of_lt Nat.and_le_left (bnot_lt hx)

/-- C17: for a block `x` and a position `p < BLOCK_BIT`, `flipbit` toggles
bit `p` and nothing else: every other position `q` reads as before, position
`p` reads as the complement, and flipping twice gives `x` back. -/
theorem flipbit_toggles (M : Machine) (x p : Nat) (hx : x < BLOCK_MOD)
    (hp : p < BLOCK_BIT) :
    (∀ q, q < BLOCK_BIT → q ≠ p → readbit M (flipbit M x p) q = readbit M x q) ∧
    readbit M (flipbit M x p) p = 1 - readbit M x p ∧
    flipbit M (flipbit M x p) p = x := by
  refine ⟨?_, ?_, ?_⟩
  · intro q hq hne
    rw [readbit_eq M _ hq, readbit_eq M _ hq, flipbit_eq M hx hp, Nat.testBit_xor,
      Nat.testBit_two_pow]
    have : ¬ (p = q) := fun h => hne h.symm
    simp [this]
  · rw [readbit_eq M _ hp, readbit_eq M _ hp, flipbit_eq M hx hp, Nat.testBit_xor,
      Nat.testBit_two_pow_self]
    cases x.testBit p <;> rfl
  · rw [flipbit_eq M (flipbit_lt M p hx) hp, flipbit_eq M hx hp, Nat.xor_assoc,
      Nat.xor_self, Nat.xor_zero]

/-- Witness for C17: bit 5 of the block `0xF0F0F0F0`. -/
theorem flipbit_toggles_witness :
    (∀ q, q < BLOCK_BIT → q ≠ 5 →
      readbit maskingMachine (flipbit maskingMachine 0xF0F0F0F0 5) q
        = readbit maskingMachine 0xF0F0F0F0 q) ∧
    readbit maskingMachine (flipbit maskingMachine 0xF0F0F0F0 5) 5
      = 1 - readbit maskingMachine 0xF0F0F0F0 5 ∧
    flipbit maskingMachine (flipbit maskingMachine 0xF0F0F0F0 5) 5 = 0xF0F0F0F0 :=
  flipbit_toggles maskingMachine 0xF0F0F0F0 5 (by decide) (by decide)

/-! ## clone -/

/-- C18: after `clone (a, b)` the destination holds, block for block and
padding included, what the source holds, and has the fitness of the source.
The source is an argument that `clone` only reads. -/
theorem clone_copies (M : Machine) (P : Params) (a b : List Nat)
    (ha : a.length = NBR_OF_BLOCK P) (hb : b.length = NBR_OF_BLOCK P) :
    clone P a b = a ∧
    (∀ k, k < NBR_OF_BLOCK P → (clone P a b).getD k 0 = a.getD k 0) ∧
    fitness M P (clone P a b) = fitness M P a := by
  have h := clone_eq P a b ha hb
  rw [h]
  exact ⟨rfl, fun _ _ => rfl, rfl⟩

/-- Witness for C18: a four-block chromosome of the built-in configuration. -/
theorem clone_copies_witness :
    clone builtin [1, 2, 0xFFFFFFFF, 4] [9, 9, 9, 9] = [1, 2, 0xFFFFFFFF, 4] ∧
    (∀ k, k < NBR_OF_BLOCK builtin →
      (clone builtin [1, 2, 0xFFFFFFFF, 4] [9, 9, 9, 9]).getD k 0
        = [1, 2, 0xFFFFFFFF, 4].getD k 0) ∧
    fitness maskingMachine builtin (clone builtin [1, 2, 0xFFFFFFFF, 4] [9, 9, 9, 9])
      = fitness maskingMachine builtin [1, 2, 0xFFFFFFFF, 4] :=
  clone_copies maskingMachine builtin [1, 2, 0xFFFFFFFF, 4] [9, 9, 9, 9]
    (by decide) (by decide)

/-! ## Selection by the roulette wheel -/

/-- C12, at two populations. For the demo population (`fit = 4, 12, 1, 8`,
`sumfit = 25`) the seeds of `[0, 25)` select the four individuals 5, 12, 1
and 7 times. For a pair with `fit = 0, 1` the only seed of `[0, 1)` selects
the individual of fitness 0, and the individual of fitness 1 is never
selected. -/
theorem seedCount_not_proportional :
    (evaluate maskingMachine demoParams demoGA).fit = [4, 12, 1, 8] ∧
    (evaluate maskingMachine demoParams demoGA).sumfit = 25 ∧
    (List.range 4).map (seedCount demoParams
      (evaluate maskingMachine demoParams demoGA).cumfit 25) = [5, 12, 1, 7] ∧
    (evaluate maskingMachine demoPairParams demoPairGA).fit = [0, 1] ∧
    (evaluate maskingMachine demoPairParams demoPairGA).sumfit = 1 ∧
    (List.range 2).map (seedCount demoPairParams
      (evaluate maskingMachine demoPairParams demoPairGA).cumfit 1) = [1, 0] := by
  decide

/-- C13 fails for a seed above 0: in a population of four individuals without
a set bit, `sumfit` and every `cumfit` entry are 0 and the seed 1 selects the
index 3. -/
theorem rouletteWheel_zero_sum_seed_one :
    (evaluate maskingMachine demoParams demoZeroGA).sumfit = 0 ∧
    (evaluate maskingMachine demoParams demoZeroGA).cumfit = [0, 0, 0, 0] ∧
    rouletteWheel demoParams (evaluate maskingMachine demoParams demoZeroGA).cumfit 1 = 3 ∧
    rouletteWheel demoParams (evaluate maskingMachine demoParams demoZeroGA).cumfit 1 ≠ 0 := by
  decide

/-- C13, amended: when every `cumfit` entry is 0, `rouletteWheel` returns the
index 0 for the seed 0 and the index `POPSIZE - 1` for every seed above 0. -/
theorem rouletteWheel_zero_sum (P : Params) (cumfit : List Nat)
    (hP : P.valid) (hN : 1 ≤ P.POPSIZE)
    (hz : ∀ k, k < P.POPSIZE → cumfit.getD k 0 = 0) :
    rouletteWheel P cumfit 0 = 0 ∧
    ∀ seed, 0 < seed → rouletteWheel P cumfit seed = P.POPSIZE - 1 := by
  have hU := popsize_le_uint hP
  constructor
  · unfold rouletteWheel
    rw [rouletteLoop_found P cumfit 0 0 (by omega) (Nat.zero_le _) P.POPSIZE 0 1 (by decide)
      (le_refl _) (by omega) (fun k _ hk => absurd hk (Nat.not_lt_zero k))]
    rfl
  · intro seed hs
    unfold rouletteWheel
    rw [rouletteLoop_none P cumfit seed P.POPSIZE 0 1 (by decide) (Nat.zero_le _)
      (by omega) (fun k _ hk => by rw [hz k hk]; exact hs)]
    exact usub_one hN hU

/-- Witness for C13, amended: the population without a set bit. -/
theorem rouletteWheel_zero_sum_witness :
    rouletteWheel demoParams (evaluate maskingMachine demoParams demoZeroGA).cumfit 0 = 0 ∧
    ∀ seed, 0 < seed →
      rouletteWheel demoParams (evaluate maskingMachine demoParams demoZeroGA).cumfit seed
        = demoParams.POPSIZE - 1 :=
  rouletteWheel_zero_sum demoParams (evaluate maskingMachine demoParams demoZeroGA).cumfit
    (by decide) (by decide) (by decide)

/-- Witness for C16: probability 50. -/
theorem flip_contract_witness :
    ((Finset.range 100).filter (fun r =>
      (flip { maskingMachine with scale := fun raw _ => raw } 50 (fun _ => r)).1 = 1)).card
      = 50 + 1 :=
  ((flip_contract maskingMachine (fun _ => 0)).2.2 50 (by decide) (by decide)).2.2.2

/-! ## What the wheel does select -/

theorem rouletteWheel_first (P : Params) (cumfit : List Nat) (seed t : Nat)
    (hP : P.valid) (ht : t < P.POPSIZE) (hge : cumfit.getD t 0 ≥ seed)
    (hlow : ∀ k, k < t → cumfit.getD k 0 < seed) : rouletteWheel P cumfit seed = t := by
  have hU := popsize_le_uint hP
  unfold rouletteWheel
  rw [rouletteLoop_found P cumfit seed t ht hge P.POPSIZE 0 1 (by decide) (Nat.zero_le _)
    (by omega) (fun k _ hk => hlow k hk)]
  rw [usub_one (by omega) (by omega)]; rfl

theorem fitSum_zero (M : Machine) (P : Params) (pop : List (List Nat)) :
    fitSum M P pop 0 = 0 := by
  simp [fitSum]

/-- After `evaluate` without wrap-around, a seed in `[1, sumfit]` selects the
individual whose interval of the cumulative sum contains it. -/
theorem rouletteWheel_interval (M : Machine) (P : Params) (g : GA) (hP : P.valid)
    (ha : allocated P g) (hnw : P.POPSIZE * P.LEN < UINT_MOD) (s i : Nat)
    (hs1 : 1 ≤ s) (hs2 : s ≤ fitSum M P g.pop P.POPSIZE) (hi : i < P.POPSIZE) :
    rouletteWheel P (evaluate M P g).cumfit s = i
      ↔ fitSum M P g.pop i < s ∧ s ≤ fitSum M P g.pop (i + 1) := by
  have inv := evalInv_evaluate M P g ha
  have hcum : ∀ k, k < P.POPSIZE →
      (evaluate M P g).cumfit.getD k 0 = fitSum M P g.pop (k + 1) := by
    intro k hk
    rw [inv.cum_eq k hk, fitSum_lt_uint M P g hP ha hnw (by omega)]
  have hback : ∀ t, t < P.POPSIZE → fitSum M P g.pop t < s → s ≤ fitSum M P g.pop (t + 1) →
      rouletteWheel P (evaluate M P g).cumfit s = t := by
    intro t ht h1 h2
    apply rouletteWheel_first P _ s t hP ht
    · rw [hcum t ht]; exact h2
    · intro k hk
      rw [hcum k (by omega)]
      have := fitSum_mono M P g.pop (show k + 1 ≤ t by omega)
      omega
  constructor
  · intro hsel
    have hex : ∃ t, s ≤ fitSum M P g.pop (t + 1) :=
      ⟨P.POPSIZE - 1, by rw [show P.POPSIZE - 1 + 1 = P.POPSIZE by omega]; exact hs2⟩
    have hfind := Nat.find_spec hex
    have hmin : ∀ m, m < Nat.find hex → ¬ s ≤ fitSum M P g.pop (m + 1) :=
      fun m hm => Nat.find_min hex hm
    have hle : Nat.find hex ≤ P.POPSIZE - 1 := Nat.find_min' hex
      (by rw [show P.POPSIZE - 1 + 1 = P.POPSIZE by omega]; exact hs2)
    have hlow : fitSum M P g.pop (Nat.find hex) < s := by
      by_cases h0 : Nat.find hex = 0
      · rw [h0, fitSum_zero]; omega
      · have := hmin (Nat.find hex - 1) (by omega)
        rw [show Nat.find hex - 1 + 1 = Nat.find hex by omega] at this
        omega
    have ht := hback (Nat.find hex) (by omega) hlow hfind
    have : i = Nat.find hex := hsel.symm.trans ht
    rw [this]
    exact ⟨hlow, hfind⟩
  · rintro ⟨h1, h2⟩
    exact hback i hi h1 h2

/-- After `evaluate` without wrap-around, every individual `i` is selected by
exactly `fit[i]` of the seeds `1 .. sumfit`: the wheel is proportional on
`[1, sumfit]`, not on `[0, sumfit)`. -/
theorem seeds_shifted_proportional (M : Machine) (P : Params) (g : GA) (hP : P.valid)
    (ha : allocated P g) (hnw : P.POPSIZE * P.LEN < UINT_MOD) (i : Nat)
    (hi : i < P.POPSIZE) :
    ((Finset.Icc 1 (evaluate M P g).sumfit).filter
        (fun s => rouletteWheel P (evaluate M P g).cumfit s = i)).card
      = (evaluate M P g).fit.getD i 0 := by
  have inv := evalInv_evaluate M P g ha
  have hsum : (evaluate M P g).sumfit = fitSum M P g.pop P.POPSIZE := by
    rw [inv.sum_eq, fitSum_lt_uint M P g hP ha hnw (le_refl _)]
  have hset : (Finset.Icc 1 (evaluate M P g).sumfit).filter
        (fun s => rouletteWheel P (evaluate M P g).cumfit s = i)
      = Finset.Ioc (fitSum M P g.pop i) (fitSum M P g.pop (i + 1)) := by
    ext s
    simp only [Finset.mem_filter, Finset.mem_Icc, Finset.mem_Ioc]
    have hmono := fitSum_mono M P g.pop (show i + 1 ≤ P.POPSIZE by omega)
    constructor
    · rintro ⟨⟨h1, h2⟩, h3⟩
      exact (rouletteWheel_interval M P g hP ha hnw s i h1 (hsum ▸ h2) hi).mp h3
    · rintro ⟨h1, h2⟩
      have hs1 : 1 ≤ s := by omega
      have hs2 : s ≤ fitSum M P g.pop P.POPSIZE := by omega
      exact ⟨⟨hs1, hsum ▸ hs2⟩,
        (rouletteWheel_interval M P g hP ha hnw s i hs1 hs2 hi).mpr ⟨h1, h2⟩⟩
  rw [hset, Nat.card_Ioc, inv.fit_eq i hi, fitSum_succ]
  omega

/-! ## The `else if` of evaluate -/

/-- What one turn of the scan reads in `fit` once `fit[i]` is written. -/
theorem evalInv_reads (M : Machine) (P : Params) (g G : GA) (i : Nat)
    (hi1 : i < g.fit.length) (h : EvalInv M P g i G) :
    (G.fit.set i (fitness M P (G.pop.getD i []))).getD i 0
      = fitness M P (g.pop.getD i []) ∧
    (G.fit.set i (fitness M P (G.pop.getD i []))).getD G.bestIdx 0
      = fitness M P (g.pop.getD G.bestIdx []) ∧
    (G.fit.set i (fitness M P (G.pop.getD i []))).getD G.worstIdx 0
      = fitness M P (g.pop.getD G.worstIdx []) ∧
    fitness M P (g.pop.getD G.worstIdx []) ≤ fitness M P (g.pop.getD G.bestIdx []) := by
  have hfi : (G.fit.set i (fitness M P (G.pop.getD i []))).getD i 0
      = fitness M P (g.pop.getD i []) := by
    rw [getD_set_eq_ite, if_pos ⟨rfl, by rw [h.fit_len]; exact hi1⟩, h.pop_eq]
  have hfk : ∀ k, k < i + 1 → (G.fit.set i (fitness M P (G.pop.getD i []))).getD k 0
      = fitness M P (g.pop.getD k []) := by
    intro k hk
    by_cases hki : k = i
    · subst hki; exact hfi
    · rw [getD_set_eq_ite, if_neg (by intro hh; exact hki hh.1.symm)]
      exact h.fit_eq k (by omega)
  have hb := h.best_le
  have hw := h.worst_le
  refine ⟨hfi, hfk _ (by omega), hfk _ (by omega), ?_⟩
  by_cases h0 : i = 0
  · have e1 : G.bestIdx = 0 := by omega
    have e2 : G.worstIdx = 0 := by omega
    rw [e1, e2]
  · exact h.best_max _ (by omega)

/-- On a state of the scan, the turn with `else if` and the turn with two
independent tests do the same. -/
theorem evaluateStep_eq_indep (M : Machine) (P : Params) (g G : GA) (i : Nat)
    (hi1 : i < g.fit.length) (h : EvalInv M P g i G) :
    evaluateStepIndep M P i G = evaluateStep M P i G := by
  obtain ⟨r1, r2, r3, r4⟩ := evalInv_reads M P g G i hi1 h
  unfold evaluateStepIndep evaluateStep
  simp only [r1, r2, r3, gt_iff_lt]
  by_cases hnew : fitness M P (g.pop.getD G.bestIdx []) < fitness M P (g.pop.getD i [])
  · simp only [if_pos hnew, r1, r3]
    rw [if_neg (by omega)]
  · simp only [if_neg hnew, r1, r3]

theorem evaluate_loop_eq_indep (M : Machine) (P : Params) (g : GA) (n : Nat)
    (h1 : n ≤ g.fit.length) (h2 : n ≤ g.cumfit.length) :
    forLoop n (evaluateStepIndep M P) { g with sumfit := 0, worstIdx := 0, bestIdx := 0 }
      = forLoop n (evaluateStep M P) { g with sumfit := 0, worstIdx := 0, bestIdx := 0 } := by
  induction n with
  | zero => rfl
  | succ n ih =>
    rw [forLoop_succ, forLoop_succ, ih (by omega) (by omega)]
    exact evaluateStep_eq_indep M P g _ n (by omega)
      (evalInv_loop M P g n (by omega) (by omega))

/-- C19 fails: no population leaves `worstIdx` stale. There are no machine,
parameters and allocated state with at least one individual for which, after
`evaluate`, `worstIdx` differs from the result of the scan with independent
tests, or some individual has a fitness below `fit[worstIdx]`. -/
theorem no_stale_worstIdx :
    ¬ ∃ (M : Machine) (P : Params) (g : GA), allocated P g ∧ 1 ≤ P.POPSIZE ∧
      ((evaluate M P g).worstIdx ≠ (evaluateIndep M P g).worstIdx ∨
        ∃ i, i < P.POPSIZE ∧
          (evaluate M P g).fit.getD i 0
            < (evaluate M P g).fit.getD (evaluate M P g).worstIdx 0) := by
  rintro ⟨M, P, g, ha, hN, hbad⟩
  have inv := evalInv_evaluate M P g ha
  have heq : evaluateIndep M P g = evaluate M P g :=
    evaluate_loop_eq_indep M P g P.POPSIZE (le_of_eq ha.1.symm) (le_of_eq ha.2.1.symm)
  rcases hbad with hne | ⟨i, hi, hlt⟩
  · exact hne (by rw [heq])
  · have hw := inv.worst_le
    have hwl : (evaluate M P g).worstIdx < P.POPSIZE := by omega
    rw [inv.fit_eq i hi, inv.fit_eq _ hwl] at hlt
    have := inv.worst_min i hi
    omega

/-- C19, amended: the `if ... else if` of `evaluate` never leaves `worstIdx`
stale. For every population of at least one individual the scan ends in the
state that a scan with independent tests of best and worst ends in, and
`worstIdx` is the smallest index of an individual of minimal fitness. -/
theorem evaluate_eq_indep (M : Machine) (P : Params) (g : GA)
    (ha : allocated P g) (hN : 1 ≤ P.POPSIZE) :
    evaluate M P g = evaluateIndep M P g ∧
    (evaluate M P g).worstIdx = (evaluateIndep M P g).worstIdx ∧
    (evaluate M P g).worstIdx < P.POPSIZE ∧
    (∀ i, i < P.POPSIZE →
      (evaluate M P g).fit.getD (evaluate M P g).worstIdx 0
        ≤ (evaluate M P g).fit.getD i 0) ∧
    (∀ i, i < (evaluate M P g).worstIdx →
      (evaluate M P g).fit.getD (evaluate M P g).worstIdx 0
        < (evaluate M P g).fit.getD i 0) := by
  have inv := evalInv_evaluate M P g ha
  have heq : evaluateIndep M P g = evaluate M P g :=
    evaluate_loop_eq_indep M P g P.POPSIZE (le_of_eq ha.1.symm) (le_of_eq ha.2.1.symm)
  have hw := inv.worst_le
  have hwl : (evaluate M P g).worstIdx < P.POPSIZE := by omega
  refine ⟨heq.symm, by rw [heq], hwl, ?_, ?_⟩
  · intro i hi
    rw [inv.fit_eq i hi, inv.fit_eq _ hwl]
    exact inv.worst_min i hi
  · intro i hi
    rw [inv.fit_eq i (by omega), inv.fit_eq _ hwl]
    exact inv.worst_first i hi

/-- Witness for C19, amended: a population whose fitness keeps improving
along the scan (1, 2, 4, 8 set bits); `worstIdx` stays at 0. -/
theorem evaluate_eq_indep_witness :
    (evaluate maskingMachine demoParams
        { demoGA with pop := [[0x001], [0x003], [0x00F], [0x0FF]] }).worstIdx = 0 ∧
    evaluate maskingMachine demoParams
        { demoGA with pop := [[0x001], [0x003], [0x00F], [0x0FF]] }
      = evaluateIndep maskingMachine demoParams
        { demoGA with pop := [[0x001], [0x003], [0x00F], [0x0FF]] } :=
  ⟨by decide, (evaluate_eq_indep maskingMachine demoParams
    { demoGA with pop := [[0x001], [0x003], [0x00F], [0x0FF]] } (by decide) (by decide)).1⟩

/-! ## mutate -/

theorem flip_hundred (M : Machine) (s : Rng) : flip M 100 s = (1, s) := by
  simp [flip]

theorem low_mask_succ (n : Nat) : (2 ^ n - 1) ^^^ 2 ^ n = 2 ^ (n + 1) - 1 := by
  apply Nat.eq_of_testBit_eq
  intro i
  rw [Nat.testBit_xor, Nat.testBit_two_pow_sub_one, Nat.testBit_two_pow_sub_one,
    Nat.testBit_two_pow]
  by_cases h1 : i < n
  · have h2 : ¬ (n = i) := by omega
    have h3 : i < n + 1 := by omega
    simp [h1, h2, h3]
  · by_cases h2 : n = i
    · subst h2; simp
    · have h3 : ¬ (i < n + 1) := by omega
      simp [h1, h2, h3]

theorem low_mask_lt {n : Nat} (hn : n ≤ BLOCK_BIT) : 2 ^ n - 1 < BLOCK_MOD := by
  have h1 : 2 ^ n ≤ BLOCK_MOD := Nat.pow_le_pow_right (by decide) hn
  have h2 := Nat.two_pow_pos n
  omega

/-- With mutation probability 100 the loop of `mutateBlock` complements the
`n` low bits it has visited and draws nothing. -/
theorem mutateBlock_loop_hundred (M : Machine) (P : Params) (hm : P.PMUT = 100)
    (x : Nat) (hx : x < BLOCK_MOD) (s : Rng) :
    ∀ n, n ≤ BLOCK_BIT →
      forLoop n (fun i (xs : Nat × Rng) =>
        ((if (flip M P.PMUT xs.2).1 ≠ 0 then flipbit M xs.1 i else xs.1),
          (flip M P.PMUT xs.2).2)) (x, s) = (x ^^^ (2 ^ n - 1), s) := by
  intro n
  induction n with
  | zero => intro _; simp [forLoop]
  | succ n ih =>
    intro hn
    rw [forLoop_succ, ih (by omega)]
    have hlt : x ^^^ (2 ^ n - 1) < BLOCK_MOD :=
      Nat.xor_lt_two_pow hx (low_mask_lt (by omega))
    simp only [hm, flip_hundred, ne_eq, one_ne_zero, not_false_eq_true, if_true]
    rw [flipbit_eq M hlt (by omega), Nat.xor_assoc, low_mask_succ]

theorem mutateBlock_hundred (M : Machine) (P : Params) (hm : P.PMUT = 100)
    (x lb : Nat) (hx : x < BLOCK_MOD) (s : Rng) :
    mutateBlock M P x lb s = (x ^^^ (2 ^ (BLOCK_BIT - lb) - 1), s) := by
  unfold mutateBlock
  exact mutateBlock_loop_hundred M P hm x hx s _ (Nat.sub_le _ _)

/-- With mutation probability 100 the first loop of `mutate` complements the
blocks it has visited. -/
theorem mutate_loop_hundred (M : Machine) (P : Params) (hm : P.PMUT = 100)
    (c : List Nat) (hc : ∀ k, c.getD k 0 < BLOCK_MOD) (s : Rng) :
    ∀ n, n ≤ c.length →
      (forLoop n (fun i (cs : List Nat × Rng) =>
        (cs.1.set i (mutateBlock M P (cs.1.getD i 0) 0 cs.2).1,
          (mutateBlock M P (cs.1.getD i 0) 0 cs.2).2)) (c, s)).2 = s ∧
      (forLoop n (fun i (cs : List Nat × Rng) =>
        (cs.1.set i (mutateBlock M P (cs.1.getD i 0) 0 cs.2).1,
          (mutateBlock M P (cs.1.getD i 0) 0 cs.2).2)) (c, s)).1.length = c.length ∧
      ∀ k, (forLoop n (fun i (cs : List Nat × Rng) =>
        (cs.1.set i (mutateBlock M P (cs.1.getD i 0) 0 cs.2).1,
          (mutateBlock M P (cs.1.getD i 0) 0 cs.2).2)) (c, s)).1.getD k 0
        = if k < n then c.getD k 0 ^^^ (BLOCK_MOD - 1) else c.getD k 0 := by
  intro n
  induction n with
  | zero => intro _; simp [forLoop]
  | succ n ih =>
    intro hn
    obtain ⟨i1, i2, i3⟩ := ih (by omega)
    rw [forLoop_succ]
    have hcur : (forLoop n (fun i (cs : List Nat × Rng) =>
        (cs.1.set i (mutateBlock M P (cs.1.getD i 0) 0 cs.2).1,
          (mutateBlock M P (cs.1.getD i 0) 0 cs.2).2)) (c, s)).1.getD n 0 = c.getD n 0 := by
      rw [i3 n, if_neg (Nat.lt_irrefl n)]
    simp only [hcur, mutateBlock_hundred M P hm _ 0 (hc n)]
    refine ⟨i1, ?_, ?_⟩
    · rw [List.length_set]; exact i2
    · intro k
      rw [getD_set_eq_ite, i2, i3 k]
      by_cases hk : n = k
      · subst hk
        rw [if_pos ⟨rfl, by omega⟩, if_pos (by omega)]
        rfl
      · rw [if_neg (by intro h; exact hk h.1)]
        by_cases hkn : k < n
        · rw [if_pos hkn, if_pos (by omega)]
        · rw [if_neg hkn, if_neg (by omega)]

/-- With mutation probability 100, `mutate` complements every full block,
complements the `BLOCK_BIT - LOST_BITS` low bits of the last block, and
draws nothing. -/
theorem mutate_hundred (M : Machine) (P : Params) (hm : P.PMUT = 100)
    (c : List Nat) (s : Rng) (hP : P.valid) (hc : validChrom P c) :
    (mutate M P c s).2 = s ∧
    (mutate M P c s).1.length = c.length ∧
    ∀ k, (mutate M P c s).1.getD k 0
      = if k < NBR_OF_BLOCK P - 1 then c.getD k 0 ^^^ (BLOCK_MOD - 1)
        else if k = NBR_OF_BLOCK P - 1 then
          c.getD k 0 ^^^ (2 ^ (BLOCK_BIT - LOST_BITS P) - 1)
        else c.getD k 0 := by
  have hn := nbr_pos hP
  obtain ⟨i1, i2, i3⟩ := mutate_loop_hundred M P hm c (getD_lt_of_valid hc) s
    (NBR_OF_BLOCK P - 1) (by rw [hc.1]; omega)
  have hlast := i3 (NBR_OF_BLOCK P - 1)
  rw [if_neg (Nat.lt_irrefl _)] at hlast
  unfold mutate
  simp only [i1, hlast, mutateBlock_hundred M P hm _ _ (getD_lt_of_valid hc _)]
  refine ⟨trivial, by rw [List.length_set]; exact i2, ?_⟩
  intro k
  rw [getD_set_eq_ite, i2, i3 k]
  by_cases hk : NBR_OF_BLOCK P - 1 = k
  · subst hk
    rw [if_pos ⟨rfl, by rw [hc.1]; omega⟩, if_neg (Nat.lt_irrefl _), if_pos rfl]
  · rw [if_neg (by intro h; exact hk h.1)]
    by_cases hkn : k < NBR_OF_BLOCK P - 1
    · rw [if_pos hkn, if_pos hkn]
    · rw [if_neg hkn, if_neg hkn, if_neg (fun h => hk h.symm)]

/-- Where a logical position lies: in a full block, or among the low bits of
the last block. -/
theorem gene_position {P : Params} (hP : P.valid) {i : Nat} (hi : i < P.LEN) :
    i % BLOCK_BIT < BLOCK_BIT ∧
    (i / BLOCK_BIT < NBR_OF_BLOCK P - 1 ∨
      (i / BLOCK_BIT = NBR_OF_BLOCK P - 1 ∧ i % BLOCK_BIT < BLOCK_BIT - LOST_BITS P)) := by
  have h := len_eq hP
  have hl := @lost_lt P
  unfold BLOCK_BIT at *
  omega

/-- C11: with mutation probability 0, `mutate` returns the chromosome and the
random stream as they were. With mutation probability 100 it draws nothing,
every logical bit reads as the complement of what it was, and every padding
bit of the last block reads as before. -/
theorem mutate_contract (M : Machine) (P : Params) (c : List Nat) (s : Rng)
    (hP : P.valid) (hc : validChrom P c) :
    (P.PMUT = 0 → mutate M P c s = (c, s)) ∧
    (P.PMUT = 100 →
      (mutate M P c s).2 = s ∧
      (mutate M P c s).1.length = c.length ∧
      (∀ i, i < P.LEN → getGene M (mutate M P c s).1 i = 1 - getGene M c i) ∧
      (∀ b, BLOCK_BIT - LOST_BITS P ≤ b → b < BLOCK_BIT →
        readbit M ((mutate M P c s).1.getD (NBR_OF_BLOCK P - 1) 0) b
          = readbit M (c.getD (NBR_OF_BLOCK P - 1) 0) b)) := by
  refine ⟨fun h0 => mutate_zero M P h0 c s, ?_⟩
  intro hm
  obtain ⟨m1, m2, m3⟩ := mutate_hundred M P hm c s hP hc
  refine ⟨m1, m2, ?_, ?_⟩
  · intro i hi
    obtain ⟨g1, g2⟩ := gene_position hP hi
    unfold getGene
    rw [readbit_eq M _ g1, readbit_eq M _ g1, m3]
    rcases g2 with g2 | ⟨g2, g3⟩
    · rw [if_pos g2, Nat.testBit_xor]
      unfold BLOCK_MOD
      rw [Nat.testBit_two_pow_sub_one]
      simp only [g1, decide_True, Bool.xor_true]
      cases (c.getD (i / BLOCK_BIT) 0).testBit (i % BLOCK_BIT) <;> rfl
    · rw [if_neg (by omega), if_pos g2, Nat.testBit_xor, Nat.testBit_two_pow_sub_one]
      simp only [g3, decide_True, Bool.xor_true]
      cases (c.getD (i / BLOCK_BIT) 0).testBit (i % BLOCK_BIT) <;> rfl
  · intro b hb1 hb2
    rw [readbit_eq M _ hb2, readbit_eq M _ hb2, m3, if_neg (Nat.lt_irrefl _), if_pos rfl,
      Nat.testBit_xor, Nat.testBit_two_pow_sub_one]
    have : ¬ (b < BLOCK_BIT - LOST_BITS P) := by omega
    simp [this]

/-- Witness for C11: a twelve-bit chromosome of `demoParams`, with mutation
probability 0 and with mutation probability 100. -/
theorem mutate_contract_witness :
    mutate maskingMachine { demoParams with PMUT := 0 } [0xABC] (fun n => n * 7919)
      = ([0xABC], fun n => n * 7919) ∧
    ∀ i, i < ({ demoParams with PMUT := 100 } : Params).LEN →
      getGene maskingMachine
          (mutate maskingMachine { demoParams with PMUT := 100 } [0xABC] (fun n => n * 7919)).1 i
        = 1 - getGene maskingMachine [0xABC] i :=
  ⟨(mutate_contract maskingMachine { demoParams with PMUT := 0 } [0xABC] (fun n => n * 7919)
      (by decide) (by decide)).1 rfl,
   ((mutate_contract maskingMachine { demoParams with PMUT := 100 } [0xABC]
      (fun n => n * 7919) (by decide) (by decide)).2 rfl).2.2.1⟩

/-! ## Counting bits across a crossover -/

theorem popcount_or_add_and :
    ∀ x y, popcount (x ||| y) + popcount (x &&& y) = popcount x + popcount y := by
  intro x
  induction x using Nat.binaryRec with
  | z => intro y; simp [popcount_zero]
  | f b n ih =>
    intro y
    obtain ⟨c, m, rfl⟩ : ∃ c m, y = Nat.bit c m :=
      ⟨y.bodd, y.div2, (Nat.bit_decomp y).symm⟩
    rw [Nat.lor_bit, Nat.land_bit, popcount_bit, popcount_bit, popcount_bit, popcount_bit]
    have := ih m
    cases b <;> cases c <;> simp <;> omega

theorem popcount_or_of_disjoint {x y : Nat} (h : x &&& y = 0) :
    popcount (x ||| y) = popcount x + popcount y := by
  have := popcount_or_add_and x y
  rw [h, popcount_zero] at this
  omega

theorem popcount_split (a m : Nat) (ha : a < BLOCK_MOD) :
    popcount (a &&& m) + popcount (a &&& bnot m) = popcount a := by
  have hd : (a &&& m) &&& (a &&& bnot m) = 0 := by
    apply Nat.eq_of_testBit_eq
    intro i
    simp only [Nat.testBit_and, testBit_bnot, Nat.zero_testBit]
    by_cases hi : i < BLOCK_BIT
    · simp only [hi, decide_True]
      cases a.testBit i <;> cases m.testBit i <;> rfl
    · rw [testBit_block_high ha (Nat.le_of_not_lt hi)]; simp
  have hu : (a &&& m) ||| (a &&& bnot m) = a := by
    apply Nat.eq_of_testBit_eq
    intro i
    simp only [Nat.testBit_or, Nat.testBit_and, testBit_bnot]
    by_cases hi : i < BLOCK_BIT
    · simp only [hi, decide_True]
      cases a.testBit i <;> cases m.testBit i <;> rfl
    · rw [testBit_block_high ha (Nat.le_of_not_lt hi)]; simp
  rw [← popcount_or_of_disjoint hd, hu]

theorem cross_disjoint (a b m : Nat) (hb : b < BLOCK_MOD) :
    (a &&& m) &&& (b &&& bnot m) = 0 := by
  apply Nat.eq_of_testBit_eq
  intro i
  simp only [Nat.testBit_and, testBit_bnot, Nat.zero_testBit]
  by_cases hi : i < BLOCK_BIT
  · simp only [hi, decide_True]
    cases a.testBit i <;> cases b.testBit i <;> cases m.testBit i <;> rfl
  · rw [testBit_block_high hb (Nat.le_of_not_lt hi)]; simp

theorem cross_disjoint_swap (a b m : Nat) (ha : a < BLOCK_MOD) :
    (a &&& bnot m) &&& (b &&& m) = 0 := by
  apply Nat.eq_of_testBit_eq
  intro i
  simp only [Nat.testBit_and, testBit_bnot, Nat.zero_testBit]
  by_cases hi : i < BLOCK_BIT
  · simp only [hi, decide_True]
    cases a.testBit i <;> cases b.testBit i <;> cases m.testBit i <;> rfl
  · rw [testBit_block_high ha (Nat.le_of_not_lt hi)]; simp

/-- The two children of a block crossover have together as many set bits as
the two parents. -/
theorem crossover_block_popcount (a b m : Nat) (ha : a < BLOCK_MOD) (hb : b < BLOCK_MOD) :
    popcount ((a &&& m) ||| (b &&& bnot m)) + popcount ((a &&& bnot m) ||| (b &&& m))
      = popcount a + popcount b := by
  rw [popcount_or_of_disjoint (cross_disjoint a b m hb),
    popcount_or_of_disjoint (cross_disjoint_swap a b m ha)]
  have h1 := popcount_split a m ha
  have h2 := popcount_split b m hb
  omega

theorem cross_and (a b m K : Nat) :
    ((a &&& m) ||| (b &&& bnot m)) &&& K
      = ((a &&& K) &&& m) ||| ((b &&& K) &&& bnot m) := by
  apply Nat.eq_of_testBit_eq
  intro i
  simp only [Nat.testBit_or, Nat.testBit_and, testBit_bnot]
  cases a.testBit i <;> cases b.testBit i <;> cases m.testBit i <;> cases K.testBit i <;>
    cases decide (i < BLOCK_BIT) <;> rfl

theorem cross_and_swap (a b m K : Nat) :
    ((a &&& bnot m) ||| (b &&& m)) &&& K
      = ((a &&& K) &&& bnot m) ||| ((b &&& K) &&& m) := by
  apply Nat.eq_of_testBit_eq
  intro i
  simp only [Nat.testBit_or, Nat.testBit_and, testBit_bnot]
  cases a.testBit i <;> cases b.testBit i <;> cases m.testBit i <;> cases K.testBit i <;>
    cases decide (i < BLOCK_BIT) <;> rfl

/-- The same under any mask `K` applied to all four blocks, as `countbit`
applies one to the last block. -/
theorem crossover_block_popcount_masked (a b m K : Nat) (ha : a < BLOCK_MOD)
    (hb : b < BLOCK_MOD) :
    popcount (((a &&& m) ||| (b &&& bnot m)) &&& K)
        + popcount (((a &&& bnot m) ||| (b &&& m)) &&& K)
      = popcount (a &&& K) + popcount (b &&& K) := by
  rw [cross_and, cross_and_swap]
  exact crossover_block_popcount _ _ m (lt_of_le_of_lt Nat.and_le_left ha)
    (lt_of_le_of_lt Nat.and_le_left hb)

theorem sum_map_range_pair_eq (f1 f2 g1 g2 : Nat → Nat) :
    ∀ n, (∀ k, k < n → f1 k + f2 k = g1 k + g2 k) →
      ((List.range n).map f1).sum + ((List.range n).map f2).sum
        = ((List.range n).map g1).sum + ((List.range n).map g2).sum := by
  intro n
  induction n with
  | zero => intro _; rfl
  | succ n ih =>
    intro h
    have h1 := ih (fun k hk => h k (by omega))
    have h2 := h n (by omega)
    simp only [List.range_succ, List.map_append, List.sum_append, List.map_cons, List.map_nil,
      List.sum_cons, List.sum_nil, Nat.add_zero]
    omega

/-- A loop that writes a block into every slot of an array of `n` slots
leaves a chromosome-shaped array of blocks. -/
theorem forLoop_set_blocks (f : Nat → Nat) (n : Nat) (t : List Nat) (ht : t.length = n)
    (hf : ∀ i, i < n → f i < BLOCK_MOD) :
    ∀ b ∈ forLoop n (fun i t => t.set i (f i)) t, b < BLOCK_MOD := by
  intro b hb
  obtain ⟨k, hk, rfl⟩ := List.mem_iff_getElem.mp hb
  have hlen := forLoop_set_length f n t
  have h := forLoop_set_getD f n t k 0
  rw [List.getD_eq_getElem _ _ hk] at h
  rw [h, if_pos ⟨by omega, by omega⟩]
  exact hf k (by omega)

theorem cross_lt (a b m : Nat) (ha : a < BLOCK_MOD) (hb : b < BLOCK_MOD) :
    (a &&& m) ||| (b &&& bnot m) < BLOCK_MOD :=
  Nat.or_lt_two_pow (lt_of_le_of_lt Nat.and_le_left ha) (lt_of_le_of_lt Nat.and_le_left hb)

theorem cross_swap_lt (a b m : Nat) (ha : a < BLOCK_MOD) (hb : b < BLOCK_MOD) :
    (a &&& bnot m) ||| (b &&& m) < BLOCK_MOD :=
  Nat.or_lt_two_pow (lt_of_le_of_lt Nat.and_le_left ha) (lt_of_le_of_lt Nat.and_le_left hb)

/-- The blocks of the two children, and that both children are chromosomes. -/
theorem crossover_children (M : Machine) (P : Params)
    (p1 p2 c1 c2 m : List Nat) (s : Rng)
    (hp1 : validChrom P p1) (hp2 : validChrom P p2)
    (hc1 : c1.length = NBR_OF_BLOCK P) (hc2 : c2.length = NBR_OF_BLOCK P) :
    ∃ (d2 : List Nat) (mask : Nat → Nat),
      (crossover M P p1 p2 c1 (some c2) m s).c2 = some d2 ∧
      validChrom P (crossover M P p1 p2 c1 (some c2) m s).c1 ∧ validChrom P d2 ∧
      ∀ k, k < NBR_OF_BLOCK P →
        (crossover M P p1 p2 c1 (some c2) m s).c1.getD k 0
          = (p1.getD k 0 &&& mask k) ||| (p2.getD k 0 &&& bnot (mask k)) ∧
        d2.getD k 0 = (p1.getD k 0 &&& bnot (mask k)) ||| (p2.getD k 0 &&& mask k) := by
  simp only [crossover, crossover_loop_both]
  refine ⟨_, fun k => (initChrom M P m s).1.getD k 0, rfl, ?_, ?_, ?_⟩
  · refine ⟨by rw [forLoop_set_length]; exact hc1, ?_⟩
    exact forLoop_set_blocks _ _ _ hc1
      (fun i _ => cross_lt _ _ _ (getD_lt_of_valid hp1 i) (getD_lt_of_valid hp2 i))
  · refine ⟨by rw [forLoop_set_length]; exact hc2, ?_⟩
    exact forLoop_set_blocks _ _ _ hc2
      (fun i _ => cross_swap_lt _ _ _ (getD_lt_of_valid hp1 i) (getD_lt_of_valid hp2 i))
  · intro k hk
    rw [forLoop_set_getD, forLoop_set_getD]
    simp only [hc1, hc2, hk, and_self, if_true]

/-- C20: when both children are produced, `crossover` conserves the total
score: the fitness values of the two children add up to those of the two
parents, whatever mask is drawn; and in every block, at every bit position,
the two child bits are the two parent bits, in this order or swapped. -/
theorem crossover_conserves_fitness (M : Machine) (P : Params)
    (p1 p2 c1 c2 m : List Nat) (s : Rng) (hP : P.valid)
    (hp1 : validChrom P p1) (hp2 : validChrom P p2)
    (hc1 : c1.length = NBR_OF_BLOCK P) (hc2 : c2.length = NBR_OF_BLOCK P) :
    ∃ d2, (crossover M P p1 p2 c1 (some c2) m s).c2 = some d2 ∧
      fitness M P (crossover M P p1 p2 c1 (some c2) m s).c1 + fitness M P d2
        = fitness M P p1 + fitness M P p2 ∧
      ∀ k b, k < NBR_OF_BLOCK P →
        (((crossover M P p1 p2 c1 (some c2) m s).c1.getD k 0).testBit b
              = (p1.getD k 0).testBit b ∧
            (d2.getD k 0).testBit b = (p2.getD k 0).testBit b) ∨
        (((crossover M P p1 p2 c1 (some c2) m s).c1.getD k 0).testBit b
              = (p2.getD k 0).testBit b ∧
            (d2.getD k 0).testBit b = (p1.getD k 0).testBit b) := by
  obtain ⟨d2, mask, hd2, hv1, hv2, hblk⟩ :=
    crossover_children M P p1 p2 c1 c2 m s hp1 hp2 hc1 hc2
  have hn := nbr_pos hP
  refine ⟨d2, hd2, ?_, ?_⟩
  · rw [(fitness_eq M P _ hP hv1).1, (fitness_eq M P _ hP hv2).1,
      (fitness_eq M P _ hP hp1).1, (fitness_eq M P _ hP hp2).1]
    simp only [readbits_last]
    have hfull := sum_map_range_pair_eq
      (fun i => popcount ((crossover M P p1 p2 c1 (some c2) m s).c1.getD i 0))
      (fun i => popcount (d2.getD i 0))
      (fun i => popcount (p1.getD i 0)) (fun i => popcount (p2.getD i 0))
      (NBR_OF_BLOCK P - 1) (fun k hk => by
        obtain ⟨e1, e2⟩ := hblk k (by omega)
        simp only [e1, e2]
        exact crossover_block_popcount _ _ _ (getD_lt_of_valid hp1 k) (getD_lt_of_valid hp2 k))
    obtain ⟨e1, e2⟩ := hblk (NBR_OF_BLOCK P - 1) (by omega)
    have hlast := crossover_block_popcount_masked (p1.getD (NBR_OF_BLOCK P - 1) 0)
      (p2.getD (NBR_OF_BLOCK P - 1) 0) (mask (NBR_OF_BLOCK P - 1))
      (bnot (shl M (bnot 0) (BLOCK_BIT - LOST_BITS P)))
      (getD_lt_of_valid hp1 _) (getD_lt_of_valid hp2 _)
    rw [e1, e2]
    omega
  · intro k b hk
    obtain ⟨e1, e2⟩ := hblk k hk
    rw [e1, e2]
    simp only [Nat.testBit_or, Nat.testBit_and, testBit_bnot]
    by_cases hb : b < BLOCK_BIT
    · simp only [hb, decide_True]
      cases (p1.getD k 0).testBit b <;> cases (p2.getD k 0).testBit b <;>
        cases (mask k).testBit b <;> simp
    · rw [testBit_block_high (getD_lt_of_valid hp1 k) (Nat.le_of_not_lt hb),
        testBit_block_high (getD_lt_of_valid hp2 k) (Nat.le_of_not_lt hb)]
      simp

/-- Witness for C20: two parents of the built-in configuration. -/
theorem crossover_conserves_fitness_witness :
    ∃ d2, (crossover maskingMachine builtin [1, 2, 3, 0xFFFFFFFF] [0xF0F0F0F0, 0, 7, 0x0000FFFF]
        [0, 0, 0, 0] (some [0, 0, 0, 0]) [0, 0, 0, 0] (fun n => n * 7919)).c2 = some d2 ∧
      fitness maskingMachine builtin
          (crossover maskingMachine builtin [1, 2, 3, 0xFFFFFFFF] [0xF0F0F0F0, 0, 7, 0x0000FFFF]
            [0, 0, 0, 0] (some [0, 0, 0, 0]) [0, 0, 0, 0] (fun n => n * 7919)).c1
          + fitness maskingMachine builtin d2
        = fitness maskingMachine builtin [1, 2, 3, 0xFFFFFFFF]
          + fitness maskingMachine builtin [0xF0F0F0F0, 0, 7, 0x0000FFFF] := by
  obtain ⟨d2, h1, h2, _⟩ := crossover_conserves_fitness maskingMachine builtin
    [1, 2, 3, 0xFFFFFFFF] [0xF0F0F0F0, 0, 7, 0x0000FFFF] [0, 0, 0, 0] [0, 0, 0, 0]
    [0, 0, 0, 0] (fun n => n * 7919) (by decide) (by decide) (by decide) (by decide)
    (by decide)
  exact ⟨d2, h1, h2⟩

/-! ## The operators keep chromosomes well-formed -/

theorem forLoop_inv {σ : Type} (Inv : σ → Prop) (body : Nat → σ → σ)
    (h : ∀ i s, Inv s → Inv (body i s)) : ∀ n s, Inv s → Inv (forLoop n body s) := by
  intro n
  induction n with
  | zero => intro s hs; exact hs
  | succ n ih => intro s hs; rw [forLoop_succ]; exact h n _ (ih s hs)

theorem validChrom_set {P : Params} {c : List Nat} (h : validChrom P c) (i : Nat) {v : Nat}
    (hv : v < BLOCK_MOD) : validChrom P (c.set i v) := by
  refine ⟨by rw [List.length_set]; exact h.1, ?_⟩
  intro b hb
  rcases List.mem_or_eq_of_mem_set hb with hb | hb
  · exact h.2 b hb
  · rw [hb]; exact hv

theorem initBlock_lt (M : Machine) (lb : Nat) (s : Rng) :
    (initBlock M lb s).1 < BLOCK_MOD := by
  unfold initBlock
  apply forLoop_inv (fun (bs : Nat × Rng) => bs.1 < BLOCK_MOD)
  · intro i bs hbs
    show (if (flip M 50 bs.2).1 ≠ 0 then flipbit M bs.1 i else bs.1) < BLOCK_MOD
    split
    · exact flipbit_lt M i hbs
    · exact hbs
  · exact Nat.two_pow_pos _

theorem mutateBlock_lt (M : Machine) (P : Params) {x : Nat} (lb : Nat) (s : Rng)
    (hx : x < BLOCK_MOD) : (mutateBlock M P x lb s).1 < BLOCK_MOD := by
  unfold mutateBlock
  apply forLoop_inv (fun (xs : Nat × Rng) => xs.1 < BLOCK_MOD)
  · intro i xs hxs
    show (if (flip M P.PMUT xs.2).1 ≠ 0 then flipbit M xs.1 i else xs.1) < BLOCK_MOD
    split
    · exact flipbit_lt M i hxs
    · exact hxs
  · exact hx

theorem initChrom_valid (M : Machine) (P : Params) (c : List Nat) (s : Rng)
    (h : validChrom P c) : validChrom P (initChrom M P c s).1 := by
  unfold initChrom
  apply validChrom_set _ _ (initBlock_lt M _ _)
  apply forLoop_inv (fun (cs : List Nat × Rng) => validChrom P cs.1)
  · intro i cs hcs
    exact validChrom_set hcs i (initBlock_lt M _ _)
  · exact h

theorem mutate_valid (M : Machine) (P : Params) (c : List Nat) (s : Rng)
    (h : validChrom P c) : validChrom P (mutate M P c s).1 := by
  unfold mutate
  have hloop : validChrom P (forLoop (NBR_OF_BLOCK P - 1)
      (fun i (cs : List Nat × Rng) =>
        (cs.1.set i (mutateBlock M P (cs.1.getD i 0) 0 cs.2).1,
          (mutateBlock M P (cs.1.getD i 0) 0 cs.2).2)) (c, s)).1 := by
    apply forLoop_inv (fun (cs : List Nat × Rng) => validChrom P cs.1)
    · intro i cs hcs
      exact validChrom_set hcs i (mutateBlock_lt M P _ _ (getD_lt_of_valid hcs i))
    · exact h
  exact validChrom_set hloop _ (mutateBlock_lt M P _ _ (getD_lt_of_valid hloop _))

theorem clone_valid (P : Params) (src dst : List Nat)
    (hs : ∀ k, src.getD k 0 < BLOCK_MOD) (hd : validChrom P dst) :
    validChrom P (clone P src dst) := by
  unfold clone
  apply forLoop_inv (fun (t : List Nat) => validChrom P t)
  · intro i t ht
    exact validChrom_set ht i (hs i)
  · exact hd

theorem crossover_valid_first (M : Machine) (P : Params) (p1 p2 c1 : List Nat)
    (c2 : Option (List Nat)) (m : List Nat) (s : Rng)
    (hp1 : ∀ k, p1.getD k 0 < BLOCK_MOD) (hp2 : ∀ k, p2.getD k 0 < BLOCK_MOD)
    (hc1 : validChrom P c1) :
    validChrom P (crossover M P p1 p2 c1 c2 m s).c1 := by
  unfold crossover
  apply forLoop_inv (fun (c : List Nat × Option (List Nat)) => validChrom P c.1)
  · intro i c hc
    exact validChrom_set hc i (cross_lt _ _ _ (hp1 i) (hp2 i))
  · exact hc1

theorem crossover_valid_second (M : Machine) (P : Params) (p1 p2 c1 : List Nat)
    (c2 : Option (List Nat)) (m : List Nat) (s : Rng)
    (hp1 : ∀ k, p1.getD k 0 < BLOCK_MOD) (hp2 : ∀ k, p2.getD k 0 < BLOCK_MOD)
    (hc2 : ∀ d, c2 = some d → validChrom P d) :
    ∀ d, (crossover M P p1 p2 c1 c2 m s).c2 = some d → validChrom P d := by
  unfold crossover
  apply forLoop_inv (fun (c : List Nat × Option (List Nat)) =>
    ∀ d, c.2 = some d → validChrom P d)
  · intro i c hc
    unfold crossoverStep
    intro d hd
    cases h2 : c.2 with
    | none => rw [h2] at hd; simp at hd
    | some x =>
      rw [h2] at hd
      simp only [Option.map_some', Option.some.injEq] at hd
      rw [← hd]
      exact validChrom_set (hc x h2) i (cross_swap_lt _ _ _ (hp1 i) (hp2 i))
  · exact hc2

/-- Every slot of an array of chromosomes reads as a list of blocks, also
beyond the end of the array. -/
theorem blocks_getD_lt {P : Params} {l : List (List Nat)} (h : ∀ c ∈ l, validChrom P c)
    (j k : Nat) : (l.getD j []).getD k 0 < BLOCK_MOD := by
  by_cases hj : j < l.length
  · rw [List.getD_eq_getElem _ _ hj]
    exact getD_lt_of_valid (h _ (List.getElem_mem hj)) k
  · have e : l.getD j [] = [] := by
      rw [List.getD_eq_getElem?_getD, List.getElem?_eq_none (Nat.le_of_not_lt hj)]; rfl
    rw [e]
    exact Nat.two_pow_pos _

theorem allValid_set {P : Params} {l : List (List Nat)} (h : ∀ c ∈ l, validChrom P c)
    (i : Nat) {v : List Nat} (hv : validChrom P v) : ∀ c ∈ l.set i v, validChrom P c := by
  intro c hc
  rcases List.mem_or_eq_of_mem_set hc with hc | hc
  · exact h c hc
  · rw [hc]; exact hv

/-- A slot inside an array of chromosomes holds a chromosome. -/
theorem allValid_getD {P : Params} {l : List (List Nat)} (h : ∀ c ∈ l, validChrom P c)
    {i : Nat} (hi : i < l.length) : validChrom P (l.getD i []) := by
  rw [List.getD_eq_getElem _ _ hi]
  exact h _ (List.getElem_mem hi)

/-- Writing into a slot keeps an array of chromosomes well-formed when the
value written is a chromosome, which matters only if the slot exists. -/
theorem allValid_set_of {P : Params} {l : List (List Nat)} (h : ∀ c ∈ l, validChrom P c)
    (i : Nat) {v : List Nat} (hv : i < l.length → validChrom P v) :
    ∀ c ∈ l.set i v, validChrom P c := by
  by_cases hi : i < l.length
  · exact allValid_set h i (hv hi)
  · rw [List.set_eq_of_length_le (Nat.le_of_not_lt hi)]
    exact h

/-! ## The main functions keep the state allocated -/

theorem cross_branch_valid (M : Machine) (P : Params) (pop nw : List (List Nat))
    (m : List Nat) (i j k : Nat) (s : Rng) (c2 : Option (List Nat))
    (hpop : ∀ c ∈ pop, validChrom P c) (hnw : ∀ c ∈ nw, validChrom P c)
    (hc2 : ∀ d, c2 = some d → i * 2 + 1 < nw.length → validChrom P d) :
    ∀ c ∈ (match (crossover M P (pop.getD j []) (pop.getD k []) (nw.getD (i * 2) [])
              c2 m s).c2 with
            | some d => (nw.set (i * 2) (crossover M P (pop.getD j []) (pop.getD k [])
                (nw.getD (i * 2) []) c2 m s).c1).set (i * 2 + 1) d
            | none => nw.set (i * 2) (crossover M P (pop.getD j []) (pop.getD k [])
                (nw.getD (i * 2) []) c2 m s).c1),
      validChrom P c := by
  have h1 : ∀ c ∈ nw.set (i * 2) (crossover M P (pop.getD j []) (pop.getD k [])
      (nw.getD (i * 2) []) c2 m s).c1, validChrom P c :=
    allValid_set_of hnw _ (fun hi =>
      crossover_valid_first M P _ _ _ _ _ _ (blocks_getD_lt hpop _) (blocks_getD_lt hpop _)
        (allValid_getD hnw hi))
  split
  · rename_i d hd
    apply allValid_set_of h1
    intro hi
    rw [List.length_set] at hi
    exact crossover_valid_second M P _ _ _ _ _ _ (blocks_getD_lt hpop _)
      (blocks_getD_lt hpop _) (fun e he => hc2 e he hi) d hd
  · exact h1

theorem cross_branch_length (M : Machine) (P : Params) (pop nw : List (List Nat))
    (m : List Nat) (i j k : Nat) (s : Rng) (c2 : Option (List Nat)) :
    (match (crossover M P (pop.getD j []) (pop.getD k []) (nw.getD (i * 2) [])
              c2 m s).c2 with
            | some d => (nw.set (i * 2) (crossover M P (pop.getD j []) (pop.getD k [])
                (nw.getD (i * 2) []) c2 m s).c1).set (i * 2 + 1) d
            | none => nw.set (i * 2) (crossover M P (pop.getD j []) (pop.getD k [])
                (nw.getD (i * 2) []) c2 m s).c1).length = nw.length := by
  split <;> simp

theorem clone_branch_valid (P : Params) (pop nw : List (List Nat)) (i j k : Nat)
    (hpop : ∀ c ∈ pop, validChrom P c) (hnw : ∀ c ∈ nw, validChrom P c) :
    ∀ c ∈ (if P.GENERATIONAL ≠ 0 then
            (nw.set (i * 2) (clone P (pop.getD j []) (nw.getD (i * 2) []))).set (i * 2 + 1)
              (clone P (pop.getD k [])
                ((nw.set (i * 2) (clone P (pop.getD j []) (nw.getD (i * 2) []))).getD
                  (i * 2 + 1) []))
          else nw.set (i * 2) (clone P (pop.getD j []) (nw.getD (i * 2) []))),
      validChrom P c := by
  have h1 : ∀ c ∈ nw.set (i * 2) (clone P (pop.getD j []) (nw.getD (i * 2) [])),
      validChrom P c :=
    allValid_set_of hnw _ (fun hi =>
      clone_valid P _ _ (blocks_getD_lt hpop _) (allValid_getD hnw hi))
  split
  · apply allValid_set_of h1
    intro hi
    exact clone_valid P _ _ (blocks_getD_lt hpop _) (allValid_getD h1 hi)
  · exact h1

theorem selectStep_nwpop_valid (M : Machine) (P : Params) (i : Nat) (st : St)
    (hpop : ∀ c ∈ st.ga.pop, validChrom P c) (hnw : ∀ c ∈ st.ga.nwpop, validChrom P c) :
    (selectStep M P i st).ga.nwpop.length = st.ga.nwpop.length ∧
    ∀ c ∈ (selectStep M P i st).ga.nwpop, validChrom P c := by
  unfold selectStep
  simp only []
  split
  · refine ⟨cross_branch_length M P _ _ _ _ _ _ _ _, ?_⟩
    apply cross_branch_valid M P _ _ _ _ _ _ _ _ hpop hnw
    intro d hd hi
    split at hd
    · simp only [Option.some.injEq] at hd
      rw [← hd]; exact allValid_getD hnw hi
    · simp at hd
  · constructor
    · simp only []
      split <;> simp
    · exact clone_branch_valid P _ _ _ _ _ hpop hnw

theorem selectStep_allocated (M : Machine) (P : Params) (i : Nat) (st : St)
    (ha : allocated P st.ga) : allocated P (selectStep M P i st).ga := by
  obtain ⟨a1, a2, a3, a4, a5, a6⟩ := ha
  obtain ⟨f1, f2, f3, _⟩ := selectStep_frame M P i st
  obtain ⟨n1, n2⟩ := selectStep_nwpop_valid M P i st a5 a6
  exact ⟨f2 ▸ a1, f3 ▸ a2, f1 ▸ a3, n1 ▸ a4, f1 ▸ a5, n2⟩

theorem selectOdd_allocated (M : Machine) (P : Params) (st : St)
    (ha : allocated P st.ga) : allocated P (selectOdd M P st).ga := by
  obtain ⟨a1, a2, a3, a4, a5, a6⟩ := ha
  unfold selectOdd
  split
  · refine ⟨a1, a2, a3, ?_, a5, ?_⟩
    · simp only [List.length_set]; exact a4
    · exact allValid_set_of a6 _ (fun hi =>
        clone_valid P _ _ (blocks_getD_lt a5 _) (allValid_getD a6 hi))
  · exact ⟨a1, a2, a3, a4, a5, a6⟩

theorem insertStep_allocated (M : Machine) (P : Params) (i : Nat) (st : St)
    (ha : allocated P st.ga) : allocated P (insertStep M P i st).ga := by
  obtain ⟨a1, a2, a3, a4, a5, a6⟩ := ha
  have hnw : ∀ c ∈ st.ga.nwpop.set i (mutate M P (st.ga.nwpop.getD i []) st.rng).1,
      validChrom P c :=
    allValid_set_of a6 _ (fun hi => mutate_valid M P _ _ (allValid_getD a6 hi))
  unfold insertStep
  refine ⟨a1, a2, ?_, ?_, ?_, hnw⟩
  · simp only [List.length_set]; exact a3
  · simp only [List.length_set]; exact a4
  · exact allValid_set_of a5 _ (fun hi =>
      clone_valid P _ _ (blocks_getD_lt hnw _) (allValid_getD a5 hi))

theorem selectAndReproduct_allocated (M : Machine) (P : Params) (st : St)
    (ha : allocated P st.ga) : allocated P (selectAndReproduct M P st).ga := by
  unfold selectAndReproduct
  apply forLoop_inv (fun (s : St) => allocated P s.ga) _
    (fun i s hs => insertStep_allocated M P i s hs)
  apply selectOdd_allocated
  exact forLoop_inv (fun (s : St) => allocated P s.ga) _
    (fun i s hs => selectStep_allocated M P i s hs) _ _ ha

theorem evaluate_allocated (M : Machine) (P : Params) (g : GA)
    (ha : allocated P g) : allocated P (evaluate M P g) := by
  have inv := evalInv_evaluate M P g ha
  obtain ⟨a1, a2, a3, a4, a5, a6⟩ := ha
  refine ⟨inv.fit_len.trans a1, inv.cum_len.trans a2, ?_, ?_, ?_, ?_⟩
  · rw [inv.pop_eq]; exact a3
  · rw [inv.nwpop_eq]; exact a4
  · rw [inv.pop_eq]; exact a5
  · rw [inv.nwpop_eq]; exact a6

theorem initialise_allocated (M : Machine) (P : Params) (st : St)
    (ha : allocated P st.ga) : allocated P (initialise M P st).ga := by
  unfold initialise
  apply forLoop_inv (fun (s : St) => allocated P s.ga) _ _ _ _ ha
  intro i s hs
  obtain ⟨a1, a2, a3, a4, a5, a6⟩ := hs
  refine ⟨a1, a2, ?_, a4, ?_, a6⟩
  · simp only [List.length_set]; exact a3
  · exact allValid_set_of a5 _ (fun hi => initChrom_valid M P _ _ (allValid_getD a5 hi))

/-- After `evaluate` on at least one individual the best fitness on record is
the fitness of a chromosome, hence at most `LEN`. -/
theorem evaluate_best_le (M : Machine) (P : Params) (g : GA) (hP : P.valid)
    (ha : allocated P g) (hN : 1 ≤ P.POPSIZE) :
    (evaluate M P g).fit.getD (evaluate M P g).bestIdx 0 ≤ P.LEN := by
  have inv := evalInv_evaluate M P g ha
  have hb := inv.best_le
  have hlt : (evaluate M P g).bestIdx < P.POPSIZE := by omega
  rw [inv.fit_eq _ hlt]
  exact (fitness_eq M P _ hP (pop_getD_valid ha hlt)).2

/-! ## The driver loop of main -/

theorem mainLoop_succ (M : Machine) (P : Params) (fuel : Nat) (st : St) :
    mainLoop M P (fuel + 1) st
      = if mainCond P st then mainLoop M P fuel (mainCycle M P st) else st := rfl

theorem main_eq (M : Machine) (P : Params) (st : St) :
    main M P st
      = (mainLoop M P (P.GENERATIONS - (mainStart M P st).ga.ngen) (mainStart M P st),
          decide ((mainLoop M P (P.GENERATIONS - (mainStart M P st).ga.ngen)
              (mainStart M P st)).ga.fit.getD
            (mainLoop M P (P.GENERATIONS - (mainStart M P st).ga.ngen)
              (mainStart M P st)).ga.bestIdx 0 = P.LEN)) := rfl

theorem selectAndReproduct_ngen (M : Machine) (P : Params) (st : St) :
    (selectAndReproduct M P st).ga.ngen = st.ga.ngen := by
  unfold selectAndReproduct
  have h1 : (forLoop (if P.GENERATIONAL ≠ 0 then P.POPSIZE / 2 else 1)
      (selectStep M P) st).ga.ngen = st.ga.ngen :=
    forLoop_inv (fun (s : St) => s.ga.ngen = st.ga.ngen) _
      (fun i s hs => ((selectStep_frame M P i s).2.2.2.2.2.2).trans hs) _ _ rfl
  have h2 := (selectOdd_frame M P (forLoop (if P.GENERATIONAL ≠ 0 then P.POPSIZE / 2 else 1)
      (selectStep M P) st)).2.2.2.2.2.2
  exact forLoop_inv (fun (s : St) => s.ga.ngen = st.ga.ngen) _
    (fun i s hs => ((insertStep_frame M P i s).2.2.2.2.2).trans hs) _ _ (h2.trans h1)

theorem evaluate_ngen (M : Machine) (P : Params) (g : GA) :
    (evaluate M P g).ngen = g.ngen := by
  unfold evaluate
  have h : ∀ i (G : GA), (evaluateStep M P i G).ngen = G.ngen := by
    intro i G
    unfold evaluateStep
    simp only []
    split
    · rfl
    · split <;> rfl
  exact forLoop_inv (fun (G : GA) => G.ngen = g.ngen) _ (fun i G hG => (h i G).trans hG) _ _ rfl

theorem initialise_ngen (M : Machine) (P : Params) (st : St) :
    (initialise M P st).ga.ngen = st.ga.ngen := by
  unfold initialise
  apply forLoop_inv (fun (s : St) => s.ga.ngen = st.ga.ngen) _ _ _ _ rfl
  intro i s hs
  exact hs

/-- The inner loop of one cycle: the state stays allocated, `ngen` is not
touched, and after at least one turn the best fitness on record is at most
`LEN`. -/
theorem inner_loop_spec (M : Machine) (P : Params) (st : St) (hP : P.valid)
    (hN : 1 ≤ P.POPSIZE) (ha : allocated P st.ga) :
    ∀ c, allocated P (forLoop c (fun _ s =>
          { selectAndReproduct M P s with
            ga := evaluate M P (selectAndReproduct M P s).ga }) st).ga ∧
      (forLoop c (fun _ s =>
          { selectAndReproduct M P s with
            ga := evaluate M P (selectAndReproduct M P s).ga }) st).ga.ngen = st.ga.ngen ∧
      (1 ≤ c →
        (forLoop c (fun _ s =>
          { selectAndReproduct M P s with
            ga := evaluate M P (selectAndReproduct M P s).ga }) st).ga.fit.getD
          (forLoop c (fun _ s =>
          { selectAndReproduct M P s with
            ga := evaluate M P (selectAndReproduct M P s).ga }) st).ga.bestIdx 0 ≤ P.LEN) := by
  intro c
  induction c with
  | zero => exact ⟨ha, rfl, fun h => absurd h (by decide)⟩
  | succ c ih =>
    obtain ⟨i1, i2, _⟩ := ih
    rw [forLoop_succ]
    have hsa := selectAndReproduct_allocated M P _ i1
    refine ⟨evaluate_allocated M P _ hsa, ?_, fun _ => evaluate_best_le M P _ hP hsa hN⟩
    show (evaluate M P _).ngen = st.ga.ngen
    rw [evaluate_ngen, selectAndReproduct_ngen, i2]

/-- One outer cycle keeps the state allocated and the best fitness on record
at most `LEN`, and adds one to `ngen`. -/
theorem mainCycle_spec (M : Machine) (P : Params) (st : St) (hP : P.valid)
    (hN : 1 ≤ P.POPSIZE) (ha : allocated P st.ga) (hg : st.ga.ngen + 1 < UINT_MOD) :
    allocated P (mainCycle M P st).ga ∧
    (mainCycle M P st).ga.fit.getD (mainCycle M P st).ga.bestIdx 0 ≤ P.LEN ∧
    (mainCycle M P st).ga.ngen = st.ga.ngen + 1 := by
  have hc : 1 ≤ (if P.GENERATIONAL ≠ 0 then 1 else P.POPSIZE) := by
    split
    · exact le_refl _
    · exact hN
  obtain ⟨i1, i2, i3⟩ := inner_loop_spec M P st hP hN ha
    (if P.GENERATIONAL ≠ 0 then 1 else P.POPSIZE)
  unfold mainCycle
  refine ⟨i1, i3 hc, ?_⟩
  show uadd _ 1 = st.ga.ngen + 1
  rw [i2]
  unfold uadd
  exact Nat.mod_eq_of_lt hg

/-- The `while` loop from an allocated state: it stops after some number `n`
of cycles within the generation budget, `ngen` has grown by one per cycle,
the loop condition held before each cycle and fails at the end. Any bound on
the cycles that is at least `GENERATIONS - ngen` gives this result. -/
theorem mainLoop_spec (M : Machine) (P : Params) (hP : P.valid) (hN : 1 ≤ P.POPSIZE)
    (hG : P.GENERATIONS < UINT_MOD) :
    ∀ fuel st, allocated P st.ga → st.ga.fit.getD st.ga.bestIdx 0 ≤ P.LEN →
      st.ga.ngen ≤ P.GENERATIONS → P.GENERATIONS - st.ga.ngen ≤ fuel →
      ∃ n, mainLoop M P fuel st = (mainCycle M P)^[n] st ∧
        st.ga.ngen + n ≤ P.GENERATIONS ∧
        (∀ k, k ≤ n → ((mainCycle M P)^[k] st).ga.ngen = st.ga.ngen + k) ∧
        (∀ k, k < n → mainCond P ((mainCycle M P)^[k] st)) ∧
        ¬ mainCond P ((mainCycle M P)^[n] st) ∧
        ((mainCycle M P)^[n] st).ga.fit.getD ((mainCycle M P)^[n] st).ga.bestIdx 0
          ≤ P.LEN := by
  intro fuel
  induction fuel with
  | zero =>
    intro st _ hb hle hf
    refine ⟨0, rfl, by omega, ?_, ?_, ?_, hb⟩
    · intro k hk
      have : k = 0 := by omega
      subst this; rfl
    · intro k hk; omega
    · intro hc
      have := hc.1
      simp only [Function.iterate_zero, id_eq] at this
      omega
  | succ fuel ih =>
    intro st ha hb hle hf
    rw [mainLoop_succ]
    by_cases hc : mainCond P st
    · rw [if_pos hc]
      have hlt : st.ga.ngen < P.GENERATIONS := hc.1
      obtain ⟨c1, c2, c3⟩ := mainCycle_spec M P st hP hN ha (by omega)
      obtain ⟨n, e1, e2, e3, e4, e5, e6⟩ := ih (mainCycle M P st) c1 c2 (by omega) (by omega)
      refine ⟨n + 1, ?_, by omega, ?_, ?_, ?_, ?_⟩
      · rw [Function.iterate_succ_apply]; exact e1
      · intro k hk
        cases k with
        | zero => rfl
        | succ k =>
          rw [Function.iterate_succ_apply, e3 k (by omega), c3]; omega
      · intro k hk
        cases k with
        | zero => exact hc
        | succ k => rw [Function.iterate_succ_apply]; exact e4 k (by omega)
      · rw [Function.iterate_succ_apply]; exact e5
      · rw [Function.iterate_succ_apply]; exact e6
    · rw [if_neg hc]
      refine ⟨0, rfl, by omega, ?_, ?_, hc, hb⟩
      · intro k hk
        have : k = 0 := by omega
        subst this; rfl
      · intro k hk; omega

theorem mainStart_spec (M : Machine) (P : Params) (st : St) (hP : P.valid)
    (hN : 1 ≤ P.POPSIZE) (ha : allocated P st.ga) :
    allocated P (mainStart M P st).ga ∧
    (mainStart M P st).ga.fit.getD (mainStart M P st).ga.bestIdx 0 ≤ P.LEN ∧
    (mainStart M P st).ga.ngen = st.ga.ngen := by
  have h1 := initialise_allocated M P st ha
  refine ⟨evaluate_allocated M P _ h1, evaluate_best_le M P _ hP h1 hN, ?_⟩
  show (evaluate M P _).ngen = st.ga.ngen
  rw [evaluate_ngen, initialise_ngen]

/-- C15: from the state left by `allocMem` (`ngen = 0`), for every random
stream, the `while` loop of `main` runs some number `n <= GENERATIONS` of
outer cycles; after `k` cycles `ngen` is `k`; the loop condition holds before
each cycle; on exit `ngen == GENERATIONS` or `fit[bestIdx] == LEN`; `SUCCESS`
is printed exactly when `fit[bestIdx] == LEN` on exit, and so always when the
loop exits before the budget is used up. -/
theorem main_loop_contract (M : Machine) (P : Params) (st : St) (hP : P.valid)
    (hN : 1 ≤ P.POPSIZE) (hG : P.GENERATIONS < UINT_MOD) (ha : allocated P st.ga)
    (h0 : st.ga.ngen = 0) :
    ∃ n, n ≤ P.GENERATIONS ∧
      (main M P st).1 = (mainCycle M P)^[n] (mainStart M P st) ∧
      (∀ k, k ≤ n → ((mainCycle M P)^[k] (mainStart M P st)).ga.ngen = k) ∧
      (∀ k, k < n → mainCond P ((mainCycle M P)^[k] (mainStart M P st))) ∧
      (main M P st).1.ga.ngen = n ∧
      ((main M P st).1.ga.ngen = P.GENERATIONS ∨
        (main M P st).1.ga.fit.getD (main M P st).1.ga.bestIdx 0 = P.LEN) ∧
      ((main M P st).2 = true ↔
        (main M P st).1.ga.fit.getD (main M P st).1.ga.bestIdx 0 = P.LEN) ∧
      ((main M P st).1.ga.ngen < P.GENERATIONS → (main M P st).2 = true) := by
  obtain ⟨s1, s2, s3⟩ := mainStart_spec M P st hP hN ha
  have hz : (mainStart M P st).ga.ngen = 0 := s3.trans h0
  obtain ⟨n, e1, e2, e3, e4, e5, e6⟩ := mainLoop_spec M P hP hN hG
    (P.GENERATIONS - (mainStart M P st).ga.ngen) (mainStart M P st) s1 s2 (by omega)
    (le_refl _)
  rw [main_eq]
  simp only [e1]
  have hk : ∀ k, k ≤ n → ((mainCycle M P)^[k] (mainStart M P st)).ga.ngen = k := by
    intro k hk; rw [e3 k hk, hz]; omega
  have hn : ((mainCycle M P)^[n] (mainStart M P st)).ga.ngen = n := hk n (le_refl _)
  have hexit : ((mainCycle M P)^[n] (mainStart M P st)).ga.ngen = P.GENERATIONS ∨
      ((mainCycle M P)^[n] (mainStart M P st)).ga.fit.getD
        ((mainCycle M P)^[n] (mainStart M P st)).ga.bestIdx 0 = P.LEN := by
    unfold mainCond at e5
    by_cases hlt : ((mainCycle M P)^[n] (mainStart M P st)).ga.ngen < P.GENERATIONS
    · right
      have : ¬ (((mainCycle M P)^[n] (mainStart M P st)).ga.fit.getD
          ((mainCycle M P)^[n] (mainStart M P st)).ga.bestIdx 0 < P.LEN) :=
        fun h => e5 ⟨hlt, h⟩
      omega
    · left; omega
  refine ⟨n, by omega, rfl, hk, e4, hn, hexit, by simp, ?_⟩
  intro hlt
  rcases hexit with h | h
  · omega
  · exact decide_eq_true h

/-! ## fitness against the gene-by-gene count -/

set_option maxRecDepth 100000 in
/-- C14, at the built-in configuration: on a machine that reduces shift
counts modulo the width, the chromosome of four all-ones blocks has 128 genes
that read 1 and the fitness 96; and a chromosome that differs from it in the
last block only, where it has no bit set, has the same fitness. -/
theorem fitness_ne_geneCount_builtin_masking :
    geneCount maskingMachine builtin [0xFFFFFFFF, 0xFFFFFFFF, 0xFFFFFFFF, 0xFFFFFFFF] = 128 ∧
    fitness maskingMachine builtin [0xFFFFFFFF, 0xFFFFFFFF, 0xFFFFFFFF, 0xFFFFFFFF] = 96 ∧
    geneCount maskingMachine builtin [0xFFFFFFFF, 0xFFFFFFFF, 0xFFFFFFFF, 0] = 96 ∧
    fitness maskingMachine builtin [0xFFFFFFFF, 0xFFFFFFFF, 0xFFFFFFFF, 0] = 96 := by
  decide

/-- Witness for C15: the demo population, ten generations at most. -/
theorem main_loop_contract_witness :
    ∃ n, n ≤ demoParams.GENERATIONS ∧
      (main maskingMachine demoParams demoState).1
        = (mainCycle maskingMachine demoParams)^[n] (mainStart maskingMachine demoParams demoState) ∧
      (∀ k, k ≤ n →
        ((mainCycle maskingMachine demoParams)^[k]
          (mainStart maskingMachine demoParams demoState)).ga.ngen = k) ∧
      (∀ k, k < n → mainCond demoParams
        ((mainCycle maskingMachine demoParams)^[k]
          (mainStart maskingMachine demoParams demoState))) ∧
      (main maskingMachine demoParams demoState).1.ga.ngen = n ∧
      ((main maskingMachine demoParams demoState).1.ga.ngen = demoParams.GENERATIONS ∨
        (main maskingMachine demoParams demoState).1.ga.fit.getD
          (main maskingMachine demoParams demoState).1.ga.bestIdx 0 = demoParams.LEN) ∧
      ((main maskingMachine demoParams demoState).2 = true ↔
        (main maskingMachine demoParams demoState).1.ga.fit.getD
          (main maskingMachine demoParams demoState).1.ga.bestIdx 0 = demoParams.LEN) ∧
      ((main maskingMachine demoParams demoState).1.ga.ngen < demoParams.GENERATIONS →
        (main maskingMachine demoParams demoState).2 = true) :=
  main_loop_contract maskingMachine demoParams demoState (by decide) (by decide) (by decide)
    (by decide) (by decide)

theorem popcount_eq_filter :
    ∀ n x, x < 2 ^ n → popcount x = ((List.range n).filter (fun i => x.testBit i)).length := by
  intro n
  induction n with
  | zero =>
    intro x hx
    have : x = 0 := by simpa using hx
    subst this; simp [popcount_zero]
  | succ n ih =>
    intro x hx
    have hd : x.div2 < 2 ^ n := by
      rw [Nat.div2_val]; rw [Nat.pow_succ] at hx; omega
    have hx2 : Nat.bit x.bodd x.div2 = x := Nat.bit_decomp x
    rw [List.range_succ_eq_map, List.filter_cons, List.filter_map, ← hx2, popcount_bit,
      ih _ hd]
    have hcomp : ((fun i => (Nat.bit x.bodd x.div2).testBit i) ∘ Nat.succ)
        = fun i => x.div2.testBit i := by
      funext i
      simp only [Function.comp]
      exact Nat.testBit_bit_succ i x.bodd x.div2
    rw [hcomp, Nat.testBit_bit_zero]
    cases x.bodd <;> simp
    omega

theorem getGene_eq (M : Machine) (c : List Nat) (i : Nat) :
    getGene M c i = ((c.getD (i / BLOCK_BIT) 0).testBit (i % BLOCK_BIT)).toNat := by
  unfold getGene
  exact readbit_eq M _ (Nat.mod_lt _ (by decide))

theorem geneCount_eq (M : Machine) (P : Params) (c : List Nat) :
    geneCount M P c
      = ((List.range P.LEN).filter
          (fun i => (c.getD (i / BLOCK_BIT) 0).testBit (i % BLOCK_BIT))).length := by
  unfold geneCount
  congr 1
  apply List.filter_congr
  intro i _
  rw [getGene_eq]
  cases (c.getD (i / BLOCK_BIT) 0).testBit (i % BLOCK_BIT) <;> simp

/-- Counting over the positions `q * BLOCK_BIT .. q * BLOCK_BIT + r - 1`
is counting over the `r` low positions of block `q`. -/
theorem filter_block (g : Nat → Nat → Bool) (q r : Nat) (hr : r ≤ BLOCK_BIT) :
    ((List.map (fun x => q * BLOCK_BIT + x) (List.range r)).filter
        (fun i => g (i / BLOCK_BIT) (i % BLOCK_BIT))).length
      = ((List.range r).filter (g q)).length := by
  rw [List.filter_map, List.length_map]
  congr 1
  apply List.filter_congr
  intro j hj
  rw [List.mem_range] at hj
  have h1 : (q * BLOCK_BIT + j) / BLOCK_BIT = q := by unfold BLOCK_BIT at *; omega
  have h2 : (q * BLOCK_BIT + j) % BLOCK_BIT = j := by unfold BLOCK_BIT at *; omega
  simp only [Function.comp, h1, h2]

theorem filter_full_blocks (g : Nat → Nat → Bool) :
    ∀ q, ((List.range (q * BLOCK_BIT)).filter
        (fun i => g (i / BLOCK_BIT) (i % BLOCK_BIT))).length
      = ((List.range q).map (fun k => ((List.range BLOCK_BIT).filter (g k)).length)).sum := by
  intro q
  induction q with
  | zero => simp
  | succ q ih =>
    have e : (q + 1) * BLOCK_BIT = q * BLOCK_BIT + BLOCK_BIT := by ring
    rw [e, List.range_add, List.filter_append, List.length_append, ih,
      filter_block g q BLOCK_BIT (le_refl _), List.range_succ, List.map_append,
      List.sum_append]
    simp

/-- The gene-by-gene count, block by block. -/
theorem geneCount_blocks (M : Machine) (P : Params) (c : List Nat) (hP : P.valid) :
    geneCount M P c
      = ((List.range (NBR_OF_BLOCK P - 1)).map (fun k => popcount (c.getD k 0 % BLOCK_MOD))).sum
        + popcount (c.getD (NBR_OF_BLOCK P - 1) 0 % 2 ^ (BLOCK_BIT - LOST_BITS P)) := by
  have hlen := len_eq hP
  rw [geneCount_eq, hlen, List.range_add, List.filter_append, List.length_append,
    filter_full_blocks (fun k j => (c.getD k 0).testBit j),
    filter_block (fun k j => (c.getD k 0).testBit j) _ _ (Nat.sub_le _ _)]
  congr 1
  · congr 1
    apply List.map_congr_left
    intro k _
    have hp := popcount_eq_filter BLOCK_BIT (c.getD k 0 % BLOCK_MOD)
      (Nat.mod_lt _ (Nat.two_pow_pos _))
    rw [hp]
    congr 1
    apply List.filter_congr
    intro j hj
    rw [List.mem_range] at hj
    unfold BLOCK_MOD
    rw [Nat.testBit_mod_two_pow]
    simp [hj]
  · rw [popcount_eq_filter (BLOCK_BIT - LOST_BITS P) _ (Nat.mod_lt _ (Nat.two_pow_pos _))]
    congr 1
    apply List.filter_congr
    intro j hj
    rw [List.mem_range] at hj
    rw [Nat.testBit_mod_two_pow]
    simp [hj]

/-- Where the shift of `readbits` is in range (`LOST_BITS > 0`), or yields 0
when it is not, `fitness` is the gene-by-gene count, for every chromosome. -/
theorem fitness_eq_geneCount (M : Machine) (P : Params) (c : List Nat) (hP : P.valid)
    (hc : validChrom P c)
    (hM : 0 < LOST_BITS P ∨ M.shlWide (BLOCK_MOD - 1) BLOCK_BIT % BLOCK_MOD = 0) :
    fitness M P c = geneCount M P c := by
  rw [(fitness_eq M P c hP hc).1, geneCount_blocks M P c hP, readbits_last]
  congr 1
  · congr 1
    apply List.map_congr_left
    intro k _
    rw [Nat.mod_eq_of_lt (getD_lt_of_valid hc k)]
  · congr 1
    by_cases h0 : LOST_BITS P = 0
    · have hz : M.shlWide (BLOCK_MOD - 1) BLOCK_BIT % BLOCK_MOD = 0 := by
        rcases hM with h | h
        · omega
        · exact h
      have hs : shl M (bnot 0) (BLOCK_BIT - LOST_BITS P) = 0 := by
        unfold shl
        rw [h0, bnot_zero, if_neg (by simp), Nat.sub_zero, hz]
      rw [hs, bnot_zero, h0, Nat.sub_zero]
      exact Nat.and_pow_two_sub_one_eq_mod _ _
    · have hl := @lost_lt P
      rw [readbits_mask (show BLOCK_BIT - LOST_BITS P < BLOCK_BIT by omega)]
      exact Nat.and_pow_two_sub_one_eq_mod _ _

end TinyGA
